import Mathlib

/-!
Shallow embedding of the intrusive AVL tree library (`src/avl.c`, `src/avl.h`).

Nodes live in a heap addressed by natural-number pointers.  Each heap cell is
an `AvlNode` record: the two child pointers (`avl_children[0]`, `avl_children[1]`
in the C source), the parent back-reference and the signed balance factor.
The root handle (`avl_root_t`) is an `Option Nat`.  Every C loop is modelled by
a fuel-indexed recursive function; a result of `none` means the fuel ran out
(or the C code would have dereferenced a null pointer, which cannot happen on
well-formed trees).  The mutating operations additionally return the number of
times `avl_rebalance` was invoked, an observer needed by the claims about
rotation counts.
-/

namespace Avl

/-- One heap cell: `struct avl_node_s`. -/
structure AvlNode where
  childL : Option Nat
  childR : Option Nat
  avl_parent : Option Nat
  avl_balance : Int
  deriving Repr, DecidableEq

/-- `avl_children[i]`: `false` is index 0 (left), `true` is index 1 (right). -/
def AvlNode.child (n : AvlNode) : Bool → Option Nat
  | false => n.childL
  | true => n.childR

def AvlNode.setChild (n : AvlNode) : Bool → Option Nat → AvlNode
  | false, v => { n with childL := v }
  | true, v => { n with childR := v }

def AvlNode.setParent (n : AvlNode) (v : Option Nat) : AvlNode :=
  { n with avl_parent := v }

def AvlNode.setBalance (n : AvlNode) (b : Int) : AvlNode :=
  { n with avl_balance := b }

/-- The heap: an association list from pointers to cells; a store write conses
a new binding and the first binding for a pointer wins, so `Heap.set`
overwrites exactly like a C assignment as far as `Heap.lk` is concerned. -/
abbrev Heap := List (Nat × AvlNode)

def emptyNode : AvlNode := ⟨none, none, none, 0⟩

/-- Look a pointer up in the heap. -/
def Heap.lk : Heap → Nat → Option AvlNode
  | [], _ => none
  | (q, n) :: h, p => if p = q then some n else Heap.lk h p

/-- Dereference a pointer (defaulting on a dangling pointer; all theorems
carry well-formedness hypotheses that rule the default out). -/
def Heap.get (h : Heap) (p : Nat) : AvlNode := (h.lk p).getD emptyNode

def Heap.set (h : Heap) (p : Nat) (n : AvlNode) : Heap := (p, n) :: h

/-- `p->avl_children[i] = v` -/
def Heap.wChild (h : Heap) (p : Nat) (i : Bool) (v : Option Nat) : Heap :=
  h.set p ((h.get p).setChild i v)

/-- `p->avl_parent = v` -/
def Heap.wParent (h : Heap) (p : Nat) (v : Option Nat) : Heap :=
  h.set p ((h.get p).setParent v)

/-- `p->avl_balance = b` -/
def Heap.wBalance (h : Heap) (p : Nat) (b : Int) : Heap :=
  h.set p ((h.get p).setBalance b)

/-- `#define avl_cmp2idx(cmp) (!((cmp) < 0))` -/
def avl_cmp2idx (c : Int) : Bool := ! decide (c < 0)

/-- `#define avl_balance2idx(cmp) (!((cmp) < 0))` -/
def avl_balance2idx (c : Int) : Bool := ! decide (c < 0)

/-- `#define avl_idx2cmp(idx) (!(idx)?-1:1)` on a 0/1 index. -/
def avl_idx2cmp (i : Bool) : Int := if i then 1 else -1

/-- `avl_idx2cmp` applied to the int-valued result of `avl_which_child`. -/
def avl_idx2cmpI (i : Int) : Int := if i = 0 then -1 else 1

/-- Convert a 0/1 C child index to the `Bool` index of `AvlNode.child`. -/
def intIdx2bool (i : Int) : Bool := i == 1

/-- `avl_which_child` from `avl.h`: -1 at the root, else 0/1. -/
def avl_which_child (h : Heap) (n : Nat) : Int :=
  match (h.get n).avl_parent with
  | none => -1
  | some p => if (h.get p).child false = some n then 0 else 1

/-- `avl_abs_balance` from `avl.h`. -/
def avl_abs_balance (b : Int) : Int := if b < 0 then b * -1 else b

/-- The inner `while (node->avl_children[i]) node = node->avl_children[i];`
loop of `avl_prev_next` (with `i` the flipped index). -/
def descendLoop (h : Heap) (i : Bool) : Nat → Nat → Option Nat
  | 0, _ => none
  | fuel+1, n =>
    match (h.get n).child i with
    | none => some n
    | some m => descendLoop h i fuel m

/-- The parent-climbing loop of `avl_prev_next`. -/
def climbLoop (h : Heap) (i : Bool) : Nat → Nat → Option (Option Nat)
  | 0, _ => none
  | fuel+1, n =>
    match (h.get n).avl_parent with
    | none => some none
    | some p =>
      if (h.get p).child i = some n then climbLoop h i fuel p
      else some (some p)

/-- `avl_prev_next(node, dir)`. Outer `none` = fuel exhausted. -/
def avl_prev_next (h : Heap) (fuel : Nat) (node : Nat) (dir : Int) :
    Option (Option Nat) :=
  let which_child := avl_cmp2idx dir
  match (h.get node).child which_child with
  | some c => (descendLoop h (!which_child) fuel c).map some
  | none => climbLoop h which_child fuel node

/-- The loop of `avl_leftmost_rightmost`. -/
def lrLoop (h : Heap) (i : Bool) : Nat → Option Nat → Option Nat → Option (Option Nat)
  | _, prev, none => some prev
  | 0, _, some _ => none
  | fuel+1, _, some n => lrLoop h i fuel (some n) ((h.get n).child i)

def avl_leftmost_rightmost (h : Heap) (root : Option Nat) (fuel : Nat) (dir : Int) :
    Option (Option Nat) :=
  lrLoop h (avl_cmp2idx dir) fuel none root

def avl_first (h : Heap) (root : Option Nat) (fuel : Nat) : Option (Option Nat) :=
  avl_leftmost_rightmost h root fuel (-1)

def avl_last (h : Heap) (root : Option Nat) (fuel : Nat) : Option (Option Nat) :=
  avl_leftmost_rightmost h root fuel 1

def avl_prev (h : Heap) (fuel : Nat) (n : Nat) : Option (Option Nat) :=
  avl_prev_next h fuel n (-1)

def avl_next (h : Heap) (fuel : Nat) (n : Nat) : Option (Option Nat) :=
  avl_prev_next h fuel n 1

/-- `avl_rebalance`.  Returns the new heap, the new root handle, and the C
return value (1 = subtree height shrank, 0 = unchanged).  The `none` heavy
child branch is unreachable on well-formed input (C would dereference null). -/
def avl_rebalance (h : Heap) (root : Option Nat) (node : Nat) :
    Heap × Option Nat × Int :=
  let which_child := avl_balance2idx (h.get node).avl_balance
  match (h.get node).child which_child with
  | none => (h, root, 0)
  | some child =>
    if (h.get node).avl_balance = (h.get child).avl_balance then
      -- Case 1: single rotation
      let R := node
      let S := child
      let R_parent := (h.get R).avl_parent
      let B := (h.get S).child (!which_child)
      let hr : Heap × Option Nat :=
        match R_parent with
        | none => (h, some S)
        | some rp => (h.wChild rp (intIdx2bool (avl_which_child h R)) (some S), root)
      let h2 := hr.1.wParent S R_parent
      let h3 := h2.wParent R (some S)
      let h4 := h3.wChild S (!which_child) (some R)
      let h5 := h4.wChild R which_child B
      let h6 := match B with
        | none => h5
        | some b => h5.wParent b (some R)
      let h7 := (h6.wBalance R 0).wBalance S 0
      (h7, hr.2, 1)
    else if (h.get child).avl_balance ≠ (0 : Int) then
      -- Case 2: double rotation
      let R := node
      let S := child
      let Q := (h.get S).child (!which_child)
      match Q with
      | none => (h, root, 0)
      | some Q =>
        let R_parent := (h.get R).avl_parent
        let B := (h.get Q).child (!which_child)
        let Cc := (h.get Q).child which_child
        let hr : Heap × Option Nat :=
          match R_parent with
          | none => (h, some Q)
          | some rp => (h.wChild rp (intIdx2bool (avl_which_child h R)) (some Q), root)
        let h2 := hr.1.wParent Q R_parent
        let h3 := h2.wChild R which_child B
        let h4 := match B with
          | none => h3
          | some b => h3.wParent b (some R)
        let h5 := h4.wChild S (!which_child) Cc
        let h6 := match Cc with
          | none => h5
          | some c => h5.wParent c (some S)
        let h7 := h6.wChild Q (!which_child) (some R)
        let h8 := h7.wParent R (some Q)
        let h9 := h8.wChild Q which_child (some S)
        let h10 := h9.wParent S (some Q)
        let h11 :=
          if (h10.get Q).avl_balance = (h10.get S).avl_balance then
            (h10.wBalance S ((h10.get Q).avl_balance * -1)).wBalance R 0
          else if (h10.get Q).avl_balance ≠ (0 : Int) then
            (h10.wBalance R ((h10.get Q).avl_balance * -1)).wBalance S 0
          else
            (h10.wBalance S 0).wBalance R 0
        let h12 := h11.wBalance Q 0
        (h12, hr.2, 1)
    else
      -- Case 3: single rotation, deletion only
      let R := node
      let S := child
      let R_parent := (h.get R).avl_parent
      let B := (h.get S).child (!which_child)
      let hr : Heap × Option Nat :=
        match R_parent with
        | none => (h, some S)
        | some rp => (h.wChild rp (intIdx2bool (avl_which_child h R)) (some S), root)
      let h2 := hr.1.wParent S R_parent
      let h3 := h2.wParent R (some S)
      let h4 := h3.wChild S (!which_child) (some R)
      let h5 := h4.wChild R which_child B
      let h6 := match B with
        | none => h5
        | some b => h5.wParent b (some R)
      let h7 := h6.wBalance S ((h6.get R).avl_balance * -1)
      (h7, hr.2, 0)

/-- Result of the binary-search descent in `avl_insert`: either an existing
node with an equal key, or the empty slot (`none` = the root handle itself,
`some (p, i)` = child slot `i` of node `p`) where the new node goes. -/
inductive FindRes where
  | found (n : Nat)
  | place (slot : Option (Nat × Bool))
  deriving Repr, DecidableEq

/-- The descent loop of `avl_insert`. -/
def insertFind (h : Heap) (cmp : Nat → Nat → Int) (node : Nat) :
    Nat → Option Nat → Option (Nat × Bool) → Option FindRes
  | _, none, slot => some (.place slot)
  | 0, some _, _ => none
  | fuel+1, some cur, _ =>
    let c := cmp node cur
    if c = 0 then some (.found cur)
    else insertFind h cmp node fuel ((h.get cur).child (avl_cmp2idx c))
      (some (cur, avl_cmp2idx c))

/-- The retrace loop of `avl_insert`.  Returns the new heap, root handle and
number of `avl_rebalance` invocations. -/
def insertRetrace : Nat → Heap → Option Nat → Nat → Option Nat →
    Option (Heap × Option Nat × Nat)
  | _, h, root, _, none => some (h, root, 0)
  | 0, _, _, _, some _ => none
  | fuel+1, h, root, node, some parent =>
    let which_child := avl_which_child h node
    let balance := avl_idx2cmpI which_child
    let abs_balance := avl_abs_balance ((h.get parent).avl_balance + balance)
    if abs_balance = 0 then
      some (h.wBalance parent ((h.get parent).avl_balance + balance), root, 0)
    else if abs_balance = 1 then
      insertRetrace fuel (h.wBalance parent ((h.get parent).avl_balance + balance))
        root parent ((h.get parent).avl_parent)
    else
      let r := avl_rebalance h root parent
      some (r.1, r.2.1, 1)

/-- `avl_insert`.  Returns the new heap, root handle, the returned node
pointer and the number of `avl_rebalance` invocations. -/
def avl_insert (h : Heap) (root : Option Nat) (node : Nat)
    (cmp : Nat → Nat → Int) (fuel : Nat) :
    Option (Heap × Option Nat × Nat × Nat) :=
  match insertFind h cmp node fuel root none with
  | none => none
  | some (.found cur) => some (h, root, cur, 0)
  | some (.place slot) =>
    let parent : Option Nat :=
      match slot with
      | none => none
      | some (p, _) => some p
    let hr : Heap × Option Nat :=
      match slot with
      | none => (h, some node)
      | some (p, i) => (h.wChild p i (some node), root)
    let h2 := hr.1.wParent node parent
    let h3 := h2.wBalance node 0
    let h4 := (h3.wChild node true none).wChild node false none
    match insertRetrace fuel h4 hr.2 node parent with
    | none => none
    | some (h5, root5, cnt) => some (h5, root5, node, cnt)

/-- The retrace loop of `avl_remove`.  `which_child` starts as the side the
removal's effect first landed on; the count is the number of
`avl_rebalance` invocations. -/
def removeRetrace : Nat → Heap → Option Nat → Int → Option Nat →
    Option (Heap × Option Nat × Nat)
  | _, h, root, _, none => some (h, root, 0)
  | 0, _, _, _, some _ => none
  | fuel+1, h, root, which_child, some parent =>
    let balance := avl_idx2cmpI which_child * -1
    let wc' := avl_which_child h parent
    let node := parent
    let parentN := (h.get parent).avl_parent
    let abs_balance := avl_abs_balance ((h.get node).avl_balance + balance)
    if abs_balance = 0 then
      removeRetrace fuel (h.wBalance node ((h.get node).avl_balance + balance))
        root wc' parentN
    else if abs_balance = 1 then
      some (h.wBalance node ((h.get node).avl_balance + balance), root, 0)
    else
      let r := avl_rebalance h root node
      if r.2.2 = 0 then some (r.1, r.2.1, 1)
      else
        match removeRetrace fuel r.1 r.2.1 wc' parentN with
        | none => none
        | some (h', root', c) => some (h', root', c + 1)

/-- The two-children splice of `avl_remove` (from the `gchild_idx`
computation through the retrace), with `child` the already-selected
replacement node. -/
def removeSplice (h : Heap) (root : Option Nat) (node : Nat) (fuel : Nat)
    (child : Nat) : Option (Heap × Option Nat × Nat) :=
  let gchild_idx := avl_balance2idx (h.get child).avl_balance
  let gchild := (h.get child).child gchild_idx
  let which_child := avl_which_child h child
  let wcB := intIdx2bool which_child
  let step1 : Option (Heap × Nat) :=
    if (h.get child).avl_parent = some node then some (h, child)
    else
      match (h.get child).avl_parent with
      | none => none
      | some par =>
        let hA1 := h.wChild child wcB ((h.get node).child wcB)
        let hA2 :=
          match (hA1.get child).child wcB with
          | none => hA1
          | some x => hA1.wParent x (some child)
        let hA3 := hA2.wChild par wcB gchild
        let hA4 :=
          match gchild with
          | none => hA3
          | some g => hA3.wParent g (some par)
        some (hA4, par)
  match step1 with
  | none => none
  | some (hA, parent) =>
    let hB1 := hA.wChild child (!wcB) ((hA.get node).child (!wcB))
    let hB2 :=
      match (hB1.get child).child (!wcB) with
      | none => hB1
      | some x => hB1.wParent x (some child)
    let hB3 := hB2.wBalance child ((hB2.get node).avl_balance)
    let hB4 := hB3.wParent child ((hB3.get node).avl_parent)
    let hrc : Heap × Option Nat :=
      match (hB4.get child).avl_parent with
      | none => (hB4, some child)
      | some np =>
        (hB4.wChild np (intIdx2bool (avl_which_child hB4 node)) (some child), root)
    removeRetrace fuel hrc.1 hrc.2 which_child (some parent)

/-- `avl_remove`.  Returns the new heap, the new root handle, and the number
of `avl_rebalance` invocations. -/
def avl_remove (h : Heap) (root : Option Nat) (node : Nat) (fuel : Nat) :
    Option (Heap × Option Nat × Nat) :=
  if (h.get node).child false = none ∧ (h.get node).child true = none then
    match (h.get node).avl_parent with
    | none => some (h, none, 0)
    | some parent =>
      let which_child := avl_which_child h node
      let h1 := h.wChild parent (intIdx2bool which_child) none
      removeRetrace fuel h1 root which_child (some parent)
  else
    let d1 : Int := if (h.get node).avl_balance < 0 then -1 else 1
    match avl_prev_next h fuel node d1 with
    | none => none
    | some c1 =>
      let c2res : Option (Option Nat) :=
        match c1 with
        | none => avl_prev_next h fuel node (d1 * -1)
        | some c => some (some c)
      match c2res with
      | none => none
      | some none => none
      | some (some child) => removeSplice h root node fuel child

/-! ## Basic lemmas about heap cells and stores -/

@[simp] theorem setChild_balance (n : AvlNode) (i : Bool) (v : Option Nat) :
    (n.setChild i v).avl_balance = n.avl_balance := by
  cases i <;> rfl

@[simp] theorem setChild_parent (n : AvlNode) (i : Bool) (v : Option Nat) :
    (n.setChild i v).avl_parent = n.avl_parent := by
  cases i <;> rfl

@[simp] theorem setParent_balance (n : AvlNode) (v : Option Nat) :
    (n.setParent v).avl_balance = n.avl_balance := rfl

@[simp] theorem setParent_child (n : AvlNode) (v : Option Nat) (j : Bool) :
    (n.setParent v).child j = n.child j := by
  cases j <;> rfl

@[simp] theorem setBalance_parent (n : AvlNode) (b : Int) :
    (n.setBalance b).avl_parent = n.avl_parent := rfl

@[simp] theorem setBalance_child (n : AvlNode) (b : Int) (j : Bool) :
    (n.setBalance b).child j = n.child j := by
  cases j <;> rfl

@[simp] theorem setBalance_balance (n : AvlNode) (b : Int) :
    (n.setBalance b).avl_balance = b := rfl

@[simp] theorem setParent_parent (n : AvlNode) (v : Option Nat) :
    (n.setParent v).avl_parent = v := rfl

theorem setChild_child (n : AvlNode) (i : Bool) (v : Option Nat) (j : Bool) :
    (n.setChild i v).child j = if j = i then v else n.child j := by
  cases i <;> cases j <;> rfl

@[simp] theorem setChild_child_same (n : AvlNode) (i : Bool) (v : Option Nat) :
    (n.setChild i v).child i = v := by
  cases i <;> rfl

theorem setChild_child_ne (n : AvlNode) {i j : Bool} (v : Option Nat) (hij : j ≠ i) :
    (n.setChild i v).child j = n.child j := by
  cases i <;> cases j <;> simp_all <;> rfl

@[simp] theorem lk_set (h : Heap) (p : Nat) (n : AvlNode) (q : Nat) :
    (h.set p n).lk q = if q = p then some n else h.lk q := rfl

theorem get_set (h : Heap) (p : Nat) (n : AvlNode) (q : Nat) :
    (h.set p n).get q = if q = p then n else h.get q := by
  unfold Heap.get
  simp only [lk_set]
  split <;> rfl

@[simp] theorem get_set_same (h : Heap) (p : Nat) (n : AvlNode) :
    (h.set p n).get p = n := by simp [get_set]

theorem get_set_ne (h : Heap) (p : Nat) (n : AvlNode) {q : Nat} (hq : q ≠ p) :
    (h.set p n).get q = h.get q := by simp [get_set, hq]

theorem lk_wChild (h : Heap) (p : Nat) (i : Bool) (v : Option Nat) (q : Nat) :
    (h.wChild p i v).lk q = if q = p then some ((h.get p).setChild i v) else h.lk q := rfl

theorem lk_wParent (h : Heap) (p : Nat) (v : Option Nat) (q : Nat) :
    (h.wParent p v).lk q = if q = p then some ((h.get p).setParent v) else h.lk q := rfl

theorem lk_wBalance (h : Heap) (p : Nat) (b : Int) (q : Nat) :
    (h.wBalance p b).lk q = if q = p then some ((h.get p).setBalance b) else h.lk q := rfl

theorem get_wChild (h : Heap) (p : Nat) (i : Bool) (v : Option Nat) (q : Nat) :
    (h.wChild p i v).get q = if q = p then (h.get p).setChild i v else h.get q := by
  unfold Heap.wChild; exact get_set ..

theorem get_wParent (h : Heap) (p : Nat) (v : Option Nat) (q : Nat) :
    (h.wParent p v).get q = if q = p then (h.get p).setParent v else h.get q := by
  unfold Heap.wParent; exact get_set ..

theorem get_wBalance (h : Heap) (p : Nat) (b : Int) (q : Nat) :
    (h.wBalance p b).get q = if q = p then (h.get p).setBalance b else h.get q := by
  unfold Heap.wBalance; exact get_set ..

/-- Structural writes never change any balance field. -/
@[simp] theorem balance_wChild (h : Heap) (p : Nat) (i : Bool) (v : Option Nat) (q : Nat) :
    ((h.wChild p i v).get q).avl_balance = (h.get q).avl_balance := by
  rw [get_wChild]; split <;> simp_all

@[simp] theorem balance_wParent (h : Heap) (p : Nat) (v : Option Nat) (q : Nat) :
    ((h.wParent p v).get q).avl_balance = (h.get q).avl_balance := by
  rw [get_wParent]; split <;> simp_all

theorem balance_wBalance (h : Heap) (p : Nat) (b : Int) (q : Nat) :
    ((h.wBalance p b).get q).avl_balance = if q = p then b else (h.get q).avl_balance := by
  rw [get_wBalance]; split <;> simp_all

/-- Balance writes never change any link field. -/
@[simp] theorem child_wBalance (h : Heap) (p : Nat) (b : Int) (q : Nat) (j : Bool) :
    ((h.wBalance p b).get q).child j = (h.get q).child j := by
  rw [get_wBalance]; split <;> simp_all

@[simp] theorem parent_wBalance (h : Heap) (p : Nat) (b : Int) (q : Nat) :
    ((h.wBalance p b).get q).avl_parent = (h.get q).avl_parent := by
  rw [get_wBalance]; split <;> simp_all

/-! ## Abstract binary trees and the representation predicate -/

/-- Pointer-labelled abstract binary tree: the shape the heap spells out. -/
inductive BTree where
  | nil : BTree
  | node : BTree → Nat → BTree → BTree
  deriving Repr, DecidableEq

namespace BTree

def inorder : BTree → List Nat
  | nil => []
  | node l p r => inorder l ++ p :: inorder r

def height : BTree → Nat
  | nil => 0
  | node l _ r => max (height l) (height r) + 1

def size : BTree → Nat
  | nil => 0
  | node l _ r => size l + size r + 1

/-- Pointer of the root, `none` for the empty tree. -/
def rootP : BTree → Option Nat
  | nil => none
  | node _ p _ => some p

@[simp] theorem inorder_nil : inorder nil = [] := rfl
@[simp] theorem inorder_node (l : BTree) (p : Nat) (r : BTree) :
    inorder (node l p r) = inorder l ++ p :: inorder r := rfl
@[simp] theorem rootP_nil : rootP nil = none := rfl
@[simp] theorem rootP_node (l : BTree) (p : Nat) (r : BTree) :
    rootP (node l p r) = some p := rfl

end BTree

/-- `repB h par t`: the heap `h` lays the abstract tree `t` out exactly, with
parent back-references, the subtree root's parent field being `par`. -/
def repB (h : Heap) : Option Nat → BTree → Bool
  | _, .nil => true
  | par, .node l p r =>
    (h.lk p).isSome &&
    ((h.get p).avl_parent == par) &&
    ((h.get p).childL == l.rootP) &&
    ((h.get p).childR == r.rootP) &&
    repB h (some p) l && repB h (some p) r

/-- Every stored balance factor is the height difference of the actual
subtrees. -/
def balOkB (h : Heap) : BTree → Bool
  | .nil => true
  | .node l p r =>
    ((h.get p).avl_balance == (r.height : Int) - (l.height : Int)) &&
    balOkB h l && balOkB h r

/-- The AVL shape invariant: every height difference has magnitude at most 1. -/
def avlOkB : BTree → Bool
  | .nil => true
  | .node l _ r =>
    decide (avl_abs_balance ((r.height : Int) - (l.height : Int)) ≤ 1) &&
    avlOkB l && avlOkB r

/-- The ordering invariant: inorder keys strictly increase (pairwise). -/
def bstOkB (key : Nat → Int) (t : BTree) : Bool :=
  t.inorder.Pairwise (fun a b => key a < key b)

/-- Structural well-formedness of a root handle: the heap represents `t`,
`t`'s nodes are pairwise distinct pointers and the handle points at `t`'s
root. -/
def wfB (h : Heap) (root : Option Nat) (t : BTree) : Bool :=
  (root == t.rootP) && repB h none t && t.inorder.Nodup

/-! ## Rotation counts (claim C4) -/

theorem insertRetrace_count_le_one :
    ∀ (fuel : Nat) (h : Heap) (root : Option Nat) (node : Nat) (par : Option Nat)
      (h' : Heap) (root' : Option Nat) (cnt : Nat),
      insertRetrace fuel h root node par = some (h', root', cnt) → cnt ≤ 1 := by
  intro fuel
  induction fuel with
  | zero =>
    intro h root node par h' root' cnt heq
    cases par with
    | none => simp [insertRetrace] at heq; omega
    | some p => simp [insertRetrace] at heq
  | succ fuel ih =>
    intro h root node par h' root' cnt heq
    cases par with
    | none => simp [insertRetrace] at heq; omega
    | some p =>
      rw [insertRetrace] at heq
      split_ifs at heq with h1 h2
      · simp at heq; omega
      · exact ih _ _ _ _ _ _ _ heq
      · simp at heq; omega

/-- `avl_insert` invokes `avl_rebalance` at most once per call. -/
theorem avl_insert_count_le_one (h : Heap) (root : Option Nat) (node : Nat)
    (cmp : Nat → Nat → Int) (fuel : Nat) (h' : Heap) (root' : Option Nat)
    (ret cnt : Nat) (heq : avl_insert h root node cmp fuel = some (h', root', ret, cnt)) :
    cnt ≤ 1 := by
  rw [avl_insert] at heq
  rcases hf : insertFind h cmp node fuel root none with _ | res
  · rw [hf] at heq; simp at heq
  · rw [hf] at heq
    cases res with
    | found cur => simp at heq; omega
    | place slot =>
      simp only at heq
      rcases hr : insertRetrace fuel _ _ node _ with _ | ⟨h5, root5, c5⟩
      · rw [hr] at heq; simp at heq
      · rw [hr] at heq
        simp at heq
        obtain ⟨-, -, -, rfl⟩ := heq
        exact insertRetrace_count_le_one _ _ _ _ _ _ _ _ hr

theorem removeRetrace_count_le_fuel :
    ∀ (fuel : Nat) (h : Heap) (root : Option Nat) (wc : Int) (par : Option Nat)
      (h' : Heap) (root' : Option Nat) (cnt : Nat),
      removeRetrace fuel h root wc par = some (h', root', cnt) → cnt ≤ fuel := by
  intro fuel
  induction fuel with
  | zero =>
    intro h root wc par h' root' cnt heq
    cases par with
    | none => simp [removeRetrace] at heq; omega
    | some p => simp [removeRetrace] at heq
  | succ fuel ih =>
    intro h root wc par h' root' cnt heq
    cases par with
    | none => simp [removeRetrace] at heq; omega
    | some p =>
      rw [removeRetrace] at heq
      simp only at heq
      split_ifs at heq with h1 h2 h3
      · exact le_trans (ih _ _ _ _ _ _ _ heq) (Nat.le_succ fuel)
      · simp at heq; omega
      · simp at heq; omega
      · rcases hr : removeRetrace fuel (avl_rebalance h root p).1
          (avl_rebalance h root p).2.1 (avl_which_child h p) ((h.get p).avl_parent)
          with _ | ⟨hh, rr, cc⟩
        · rw [hr] at heq; simp at heq
        · rw [hr] at heq
          simp at heq
          obtain ⟨-, -, rfl⟩ := heq
          have := ih _ _ _ _ _ _ _ hr
          omega

/-- `avl_remove` invokes `avl_rebalance` at most once per retrace step, hence
at most `fuel` times in total. -/
theorem avl_remove_count_le_fuel (h : Heap) (root : Option Nat) (node : Nat)
    (fuel : Nat) (h' : Heap) (root' : Option Nat) (cnt : Nat)
    (heq : avl_remove h root node fuel = some (h', root', cnt)) : cnt ≤ fuel := by
  have splice : ∀ (child : Nat),
      removeSplice h root node fuel child = some (h', root', cnt) → cnt ≤ fuel := by
    intro child hsp
    rw [removeSplice] at hsp
    simp only at hsp
    split_ifs at hsp with hdc
    · exact removeRetrace_count_le_fuel _ _ _ _ _ _ _ _ hsp
    · rcases hcp : (h.get child).avl_parent with _ | par
      · rw [hcp] at hsp; simp at hsp
      · rw [hcp] at hsp
        simp only at hsp
        exact removeRetrace_count_le_fuel _ _ _ _ _ _ _ _ hsp
  rw [avl_remove] at heq
  split_ifs at heq with h1 hb
  · rcases hp : (h.get node).avl_parent with _ | par
    · rw [hp] at heq; simp at heq; omega
    · rw [hp] at heq
      exact removeRetrace_count_le_fuel _ _ _ _ _ _ _ _ heq
  case pos =>
    simp only at heq
    rcases hpn : avl_prev_next h fuel node (-1) with _ | c1
    · rw [hpn] at heq; simp at heq
    · rw [hpn] at heq
      rcases c1 with _ | c
      · simp only [show ((-1 : Int) * -1 = 1) from by norm_num] at heq
        rcases hpn2 : avl_prev_next h fuel node 1 with _ | c2
        · rw [hpn2] at heq; simp at heq
        · rw [hpn2] at heq
          rcases c2 with _ | child
          · simp at heq
          · exact splice child heq
      · exact splice c heq
  case neg =>
    simp only at heq
    rcases hpn : avl_prev_next h fuel node 1 with _ | c1
    · rw [hpn] at heq; simp at heq
    · rw [hpn] at heq
      rcases c1 with _ | c
      · simp only [show ((1 : Int) * -1 = -1) from by norm_num] at heq
        rcases hpn2 : avl_prev_next h fuel node (-1) with _ | c2
        · rw [hpn2] at heq; simp at heq
        · rw [hpn2] at heq
          rcases c2 with _ | child
          · simp at heq
          · exact splice child heq
      · exact splice c heq

/-- A 12-node minimal (Fibonacci) AVL tree, exactly as `avl_insert` builds it
for the key sequence 8, 5, 11, 3, 7, 10, 12, 2, 4, 6, 9, 1 (pointer =
key). -/
def fibHeap12 : Heap :=
  [(1, ⟨none, none, some 2, 0⟩), (2, ⟨some 1, none, some 3, -1⟩),
   (3, ⟨some 2, some 4, some 5, -1⟩), (4, ⟨none, none, some 3, 0⟩),
   (5, ⟨some 3, some 7, some 8, -1⟩), (6, ⟨none, none, some 7, 0⟩),
   (7, ⟨some 6, none, some 5, -1⟩), (8, ⟨some 5, some 11, none, -1⟩),
   (9, ⟨none, none, some 10, 0⟩), (10, ⟨some 9, none, some 11, -1⟩),
   (11, ⟨some 10, some 12, some 8, -1⟩), (12, ⟨none, none, some 11, 0⟩)]

/-- The abstract tree laid out by `fibHeap12`. -/
def fibTree12 : BTree :=
  .node
    (.node
      (.node (.node (.node .nil 1 .nil) 2 .nil) 3 (.node .nil 4 .nil))
      5
      (.node (.node .nil 6 .nil) 7 .nil))
    8
    (.node (.node (.node .nil 9 .nil) 10 .nil) 11 (.node .nil 12 .nil))

/-- A comparator comparing pointers as integers (used by concrete witnesses). -/
def natCmp (a b : Nat) : Int := (a : Int) - (b : Int)

/-- C4, counterexample: a single `avl_remove` call on a 12-node minimal AVL
tree invokes `avl_rebalance` twice, refuting "at most once per call" for
removal.  (`avl_insert` does satisfy the bound, see the amended theorem.) -/
theorem C4_remove_invokes_rebalance_twice :
    (avl_remove fibHeap12 (some 8) 12 20).map (fun r => r.2.2) = some 2 := by
  rfl

/-- C4, amended: `avl_insert` invokes the rotation engine at most once per
call; `avl_remove` may invoke it several times — once per retrace step, hence
at most `fuel` times in a call that completes within `fuel` retrace steps. -/
theorem C4_amended_rotation_counts :
    (∀ (h : Heap) (root : Option Nat) (node : Nat) (cmp : Nat → Nat → Int)
       (fuel : Nat) (h' : Heap) (root' : Option Nat) (ret cnt : Nat),
       avl_insert h root node cmp fuel = some (h', root', ret, cnt) → cnt ≤ 1) ∧
    (∀ (h : Heap) (root : Option Nat) (node : Nat) (fuel : Nat)
       (h' : Heap) (root' : Option Nat) (cnt : Nat),
       avl_remove h root node fuel = some (h', root', cnt) → cnt ≤ fuel) :=
  ⟨fun _ _ _ _ _ _ _ _ _ heq => avl_insert_count_le_one _ _ _ _ _ _ _ _ _ heq,
   fun _ _ _ _ _ _ _ heq => avl_remove_count_le_fuel _ _ _ _ _ _ _ heq⟩

theorem C4_amended_rotation_counts_witness :
    (∃ x, avl_insert [] none 1 natCmp 5 = some x ∧ x.2.2.2 ≤ 1) ∧
    (∃ y, avl_remove fibHeap12 (some 8) 12 20 = some y ∧ y.2.2 ≤ 20) :=
  ⟨⟨_, rfl, C4_amended_rotation_counts.1 [] none 1 natCmp 5 _ _ _ _ rfl⟩,
   ⟨_, rfl, C4_amended_rotation_counts.2 fibHeap12 (some 8) 12 20 _ _ _ rfl⟩⟩

/-- C7: when `avl_rebalance` runs on a node `R` (stored balance `b = ±1`,
matching the heavy direction) whose heavy child `S` has balance exactly 0, it
performs the Case-3 single rotation: it reports the subtree height unchanged
(returns 0), leaves `R`'s balance at `b` and sets the new subtree root `S`'s
balance to `-b` (the two are negations of each other), and a deletion retrace
that receives this report stops immediately, returning the rebalanced state
with exactly one rotation-engine invocation. -/
theorem C7_case3_single_rotation (h : Heap) (root : Option Nat) (R S : Nat)
    (b : Int) (hb : (h.get R).avl_balance = b) (hbpm : b = 1 ∨ b = -1)
    (hS : (h.get R).child (avl_balance2idx b) = some S)
    (hSb : (h.get S).avl_balance = 0) (hRS : R ≠ S) :
    (avl_rebalance h root R).2.2 = 0 ∧
    ((avl_rebalance h root R).1.get S).avl_balance =
      -(((avl_rebalance h root R).1.get R).avl_balance) ∧
    ((avl_rebalance h root R).1.get R).avl_balance = b ∧
    (∀ (fuel : Nat) (wc : Int),
      avl_abs_balance (b + avl_idx2cmpI wc * -1) ≠ 0 →
      avl_abs_balance (b + avl_idx2cmpI wc * -1) ≠ 1 →
      removeRetrace (fuel+1) h root wc (some R) =
        some ((avl_rebalance h root R).1, (avl_rebalance h root R).2.1, 1)) := by
  have hSR : S ≠ R := hRS.symm
  have hrb : ∀ X, ((avl_rebalance h root R).1.get X).avl_balance =
      if X = S then -b else (h.get X).avl_balance := by
    intro X
    rw [avl_rebalance, hb, hS]
    dsimp only
    have hne1 : ¬ (b = (h.get S).avl_balance) := by
      rw [hSb]; rcases hbpm with rfl | rfl <;> norm_num
    rw [if_neg hne1, if_neg (by rw [hSb]; simp)]
    rcases hRp : (h.get R).avl_parent with _ | rp <;>
      rcases hB : (h.get S).child (!avl_balance2idx b) with _ | bb <;>
        simp [balance_wBalance, hb, hRS, hSR, hSb]
  have hret : (avl_rebalance h root R).2.2 = 0 := by
    rw [avl_rebalance, hb, hS]
    dsimp only
    have hne1 : ¬ (b = (h.get S).avl_balance) := by
      rw [hSb]; rcases hbpm with rfl | rfl <;> norm_num
    rw [if_neg hne1, if_neg (by rw [hSb]; simp)]
  refine ⟨hret, ?_, ?_, ?_⟩
  · simp [hrb, hRS, hb]
  · simp [hrb, hRS, hb]
  · intro fuel wc h0 h1
    rw [removeRetrace]
    simp only [hb]
    rw [if_neg h0, if_neg h1, if_pos hret]

/-- A 4-node heap on which `avl_rebalance` takes the deletion-only Case 3:
node 1 (balance 1) with heavy right child 2 (balance 0). -/
def c7Heap : Heap :=
  [(1, ⟨none, some 2, none, 1⟩), (2, ⟨some 3, some 4, some 1, 0⟩),
   (3, ⟨none, none, some 2, 0⟩), (4, ⟨none, none, some 2, 0⟩)]

theorem C7_case3_single_rotation_witness :
    (avl_rebalance c7Heap (some 1) 1).2.2 = 0 ∧
    removeRetrace 3 c7Heap (some 1) 0 (some 1) =
      some ((avl_rebalance c7Heap (some 1) 1).1, (avl_rebalance c7Heap (some 1) 1).2.1, 1) :=
  ⟨(C7_case3_single_rotation c7Heap (some 1) 1 2 1 rfl (Or.inl rfl) rfl rfl
      (by decide)).1,
   (C7_case3_single_rotation c7Heap (some 1) 1 2 1 rfl (Or.inl rfl) rfl rfl
      (by decide)).2.2.2 2 0 (by decide) (by decide)⟩

/-- C6: when `avl_rebalance` performs the Case-2 double rotation (node `R`
with stored balance `b = ±1` in the heavy direction, heavy child `S` with
balance `-b`, inner grandchild `Q` with balance `q`), the new balance factors
are derived from `q`: the new subtree root `Q` always gets 0; if `q` equals
`S`'s pre-rotation balance then `S` gets `-q` and `R` gets 0; if `q` is
nonzero and different then `R` gets `-q` and `S` gets 0; if `q = 0` both get
0. -/
theorem C6_double_rotation_balance_factors (h : Heap) (root : Option Nat)
    (R S Q : Nat) (b q : Int)
    (hb : (h.get R).avl_balance = b) (hbpm : b = 1 ∨ b = -1)
    (hS : (h.get R).child (avl_balance2idx b) = some S)
    (hSb : (h.get S).avl_balance = -b)
    (hQ : (h.get S).child (!avl_balance2idx b) = some Q)
    (hq : (h.get Q).avl_balance = q)
    (hRS : R ≠ S) (hRQ : R ≠ Q) (hSQ : S ≠ Q) :
    ((avl_rebalance h root R).1.get Q).avl_balance = 0 ∧
    (q = -b →
      ((avl_rebalance h root R).1.get S).avl_balance = -q ∧
      ((avl_rebalance h root R).1.get R).avl_balance = 0) ∧
    (q ≠ -b → q ≠ 0 →
      ((avl_rebalance h root R).1.get R).avl_balance = -q ∧
      ((avl_rebalance h root R).1.get S).avl_balance = 0) ∧
    (q = 0 →
      ((avl_rebalance h root R).1.get S).avl_balance = 0 ∧
      ((avl_rebalance h root R).1.get R).avl_balance = 0) := by
  have hSR : S ≠ R := hRS.symm
  have hQR : Q ≠ R := hRQ.symm
  have hQS : Q ≠ S := hSQ.symm
  have hne1 : ¬ (b = (h.get S).avl_balance) := by
    rw [hSb]; rcases hbpm with rfl | rfl <;> norm_num
  have hne2 : (h.get S).avl_balance ≠ 0 := by
    rw [hSb]; rcases hbpm with rfl | rfl <;> norm_num
  refine ⟨?_, fun hq1 => ?_, fun hq1 hq2 => ?_, fun hq1 => ?_⟩
  · rw [avl_rebalance, hb, hS]
    dsimp only
    rw [if_neg hne1, if_pos hne2, hQ]
    dsimp only
    rcases hRp : (h.get R).avl_parent with _ | rp <;>
      rcases hB : (h.get Q).child (!avl_balance2idx b) with _ | bb <;>
        rcases hC : (h.get Q).child (avl_balance2idx b) with _ | cc <;>
          simp [balance_wBalance, hQS, hRS]
  · subst hq1
    rcases hbpm with rfl | rfl <;>
    · rw [avl_rebalance, hb, hS]
      dsimp only
      rw [if_neg hne1, if_pos hne2, hQ]
      dsimp only
      rcases hRp : (h.get R).avl_parent with _ | rp <;>
        rcases hB : (h.get Q).child (!avl_balance2idx _) with _ | bb <;>
          rcases hC : (h.get Q).child (avl_balance2idx _) with _ | cc <;>
            simp [balance_wBalance, hq, hSb, hRS, hSR, hRQ, hQR, hSQ, hQS]
  · rcases hbpm with rfl | rfl <;>
    · try simp only [neg_neg] at hq1 hSb
      rw [avl_rebalance, hb, hS]
      dsimp only
      rw [if_neg hne1, if_pos hne2, hQ]
      dsimp only
      rcases hRp : (h.get R).avl_parent with _ | rp <;>
        rcases hB : (h.get Q).child (!avl_balance2idx _) with _ | bb <;>
          rcases hC : (h.get Q).child (avl_balance2idx _) with _ | cc <;>
            simp [balance_wBalance, hq, hSb, hRS, hSR, hRQ, hQR, hSQ, hQS, hq1, hq2]
  · subst hq1
    rcases hbpm with rfl | rfl <;>
    · rw [avl_rebalance, hb, hS]
      dsimp only
      rw [if_neg hne1, if_pos hne2, hQ]
      dsimp only
      rcases hRp : (h.get R).avl_parent with _ | rp <;>
        rcases hB : (h.get Q).child (!avl_balance2idx _) with _ | bb <;>
          rcases hC : (h.get Q).child (avl_balance2idx _) with _ | cc <;>
            simp [balance_wBalance, hq, hSb, hRS, hSR, hRQ, hQR, hSQ, hQS]

/-- A 3-node heap on which `avl_rebalance` takes the Case-2 double rotation:
node 1 (balance 1), heavy child 2 (balance -1), inner grandchild 3
(balance -1, i.e. equal to the heavy child's). -/
def c6Heap : Heap :=
  [(1, ⟨none, some 2, none, 1⟩), (2, ⟨some 3, none, some 1, -1⟩),
   (3, ⟨none, none, some 2, -1⟩)]

theorem C6_double_rotation_balance_factors_witness :
    ((avl_rebalance c6Heap (some 1) 1).1.get 3).avl_balance = 0 ∧
    ((avl_rebalance c6Heap (some 1) 1).1.get 2).avl_balance = 1 ∧
    ((avl_rebalance c6Heap (some 1) 1).1.get 1).avl_balance = 0 := by
  have t := C6_double_rotation_balance_factors c6Heap (some 1) 1 2 3 1 (-1)
    (by decide) (Or.inl rfl) (by decide) (by decide) (by decide) (by decide)
    (by decide) (by decide) (by decide)
  exact ⟨t.1, by simpa using (t.2.1 (by norm_num)).1, (t.2.1 (by norm_num)).2⟩

/-- C5: one step of `avl_remove`'s retrace at ancestor `parent`, reached from
child side `wc`.  If the adjusted balance is 0 the retrace continues from the
next ancestor; if its magnitude is 1 the retrace stops with only `parent`'s
balance written; otherwise `avl_rebalance` is invoked on `parent`, and the
retrace stops exactly when the engine reports the height unchanged (returns
0), continuing upward from the next ancestor otherwise. -/
theorem C5_remove_retrace_step (fuel : Nat) (h : Heap) (root : Option Nat)
    (wc : Int) (parent : Nat) :
    (avl_abs_balance ((h.get parent).avl_balance + avl_idx2cmpI wc * -1) = 0 →
      removeRetrace (fuel+1) h root wc (some parent) =
        removeRetrace fuel
          (h.wBalance parent ((h.get parent).avl_balance + avl_idx2cmpI wc * -1))
          root (avl_which_child h parent) ((h.get parent).avl_parent)) ∧
    (avl_abs_balance ((h.get parent).avl_balance + avl_idx2cmpI wc * -1) = 1 →
      removeRetrace (fuel+1) h root wc (some parent) =
        some (h.wBalance parent ((h.get parent).avl_balance + avl_idx2cmpI wc * -1),
          root, 0)) ∧
    (avl_abs_balance ((h.get parent).avl_balance + avl_idx2cmpI wc * -1) ≠ 0 →
     avl_abs_balance ((h.get parent).avl_balance + avl_idx2cmpI wc * -1) ≠ 1 →
      ((avl_rebalance h root parent).2.2 = 0 →
        removeRetrace (fuel+1) h root wc (some parent) =
          some ((avl_rebalance h root parent).1, (avl_rebalance h root parent).2.1, 1)) ∧
      ((avl_rebalance h root parent).2.2 ≠ 0 →
        removeRetrace (fuel+1) h root wc (some parent) =
          (removeRetrace fuel (avl_rebalance h root parent).1
              (avl_rebalance h root parent).2.1 (avl_which_child h parent)
              ((h.get parent).avl_parent)).map
            (fun r => (r.1, r.2.1, r.2.2 + 1)))) := by
  refine ⟨fun h0 => ?_, fun h1 => ?_, fun h0 h1 => ⟨fun hz => ?_, fun hnz => ?_⟩⟩
  · rw [removeRetrace]
    simp only [if_pos h0]
  · rw [removeRetrace]
    rw [if_neg (by rw [h1]; norm_num), if_pos h1]
  · rw [removeRetrace]
    rw [if_neg h0, if_neg h1, if_pos hz]
  · rw [removeRetrace]
    rw [if_neg h0, if_neg h1, if_neg hnz]
    rcases removeRetrace fuel (avl_rebalance h root parent).1
        (avl_rebalance h root parent).2.1 (avl_which_child h parent)
        ((h.get parent).avl_parent) with _ | ⟨h2, r2, c2⟩ <;> rfl

theorem C5_remove_retrace_step_witness :
    removeRetrace 1 [(1, (⟨none, none, none, 0⟩ : AvlNode))] (some 1) 0 (some 1) =
      some ([(1, ⟨none, none, none, 1⟩), (1, ⟨none, none, none, 0⟩)], some 1, 0) :=
  (C5_remove_retrace_step 0 [(1, ⟨none, none, none, 0⟩)] (some 1) 0 1).2.1 (by decide)

/-! ## Zipper contexts: paths from the root down to a subtree -/

/-- One step of a path: `(d, p, sib)` means the subtree of interest is child
`d` of node `p`, whose other child is the sibling subtree `sib`. The head of
a context list is the innermost frame. -/
abbrev Frame := Bool × Nat × BTree

/-- Rebuild the whole tree from a context and the subtree in the hole. -/
def plug : List Frame → BTree → BTree
  | [], t => t
  | (true, p, sib) :: ctx, t => plug ctx (.node sib p t)
  | (false, p, sib) :: ctx, t => plug ctx (.node t p sib)

/-- Parent pointer of the hole. -/
def ctxPar : List Frame → Option Nat
  | [] => none
  | (_, p, _) :: _ => some p

/-- Keys that precede the hole's subtree in the inorder walk. -/
def ctxBefore : List Frame → List Nat
  | [] => []
  | (true, p, sib) :: ctx => ctxBefore ctx ++ (sib.inorder ++ [p])
  | (false, _, _) :: ctx => ctxBefore ctx

/-- Keys that follow the hole's subtree in the inorder walk. -/
def ctxAfter : List Frame → List Nat
  | [] => []
  | (true, _, _) :: ctx => ctxAfter ctx
  | (false, p, sib) :: ctx => (p :: sib.inorder) ++ ctxAfter ctx

/-- The ancestor reached by climbing from the hole while the current node is
the `i`-side child (the first ancestor reached by crossing from the other
side), as `avl_prev_next`'s climbing loop finds it. -/
def ctxNextUp (i : Bool) : List Frame → Option Nat
  | [] => none
  | (d, p, _) :: ctx => if d = i then ctxNextUp i ctx else some p

theorem inorder_plug : ∀ (ctx : List Frame) (t : BTree),
    (plug ctx t).inorder = ctxBefore ctx ++ t.inorder ++ ctxAfter ctx := by
  intro ctx
  induction ctx with
  | nil => intro t; simp [plug, ctxBefore, ctxAfter]
  | cons f ctx ih =>
    intro t
    obtain ⟨d, p, sib⟩ := f
    cases d <;> simp [plug, ih, ctxBefore, ctxAfter]

/-- Any node of a tree determines a zipper decomposition. -/
theorem mem_inorder_decomp : ∀ (t : BTree) (x : Nat), x ∈ t.inorder →
    ∃ (ctx : List Frame) (l r : BTree), plug ctx (.node l x r) = t := by
  intro t
  induction t with
  | nil => intro x hx; simp [BTree.inorder] at hx
  | node l p r ihl ihr =>
    intro x hx
    rcases List.mem_append.1 hx with hxl | hxpr
    · obtain ⟨ctx, l', r', hctx⟩ := ihl x hxl
      refine ⟨ctx ++ [(false, p, r)], l', r', ?_⟩
      have : ∀ (c : List Frame) (s : BTree) (f : Frame),
          plug (c ++ [f]) s = plug [f] (plug c s) := by
        intro c
        induction c with
        | nil => intro s f; rfl
        | cons g c ihc => intro s f; obtain ⟨d, q, sb⟩ := g; cases d <;> simp [plug, ihc]
      rw [this, hctx]; rfl
    · rcases List.mem_cons.1 hxpr with rfl | hxr
      · exact ⟨[], l, r, rfl⟩
      · obtain ⟨ctx, l', r', hctx⟩ := ihr x hxr
        refine ⟨ctx ++ [(true, p, l)], l', r', ?_⟩
        have : ∀ (c : List Frame) (s : BTree) (f : Frame),
            plug (c ++ [f]) s = plug [f] (plug c s) := by
          intro c
          induction c with
          | nil => intro s f; rfl
          | cons g c ihc => intro s f; obtain ⟨d, q, sb⟩ := g; cases d <;> simp [plug, ihc]
        rw [this, hctx]; rfl

theorem repB_node_iff (h : Heap) (par : Option Nat) (l : BTree) (p : Nat) (r : BTree) :
    repB h par (.node l p r) = true ↔
      (h.lk p).isSome = true ∧ (h.get p).avl_parent = par ∧
      (h.get p).childL = l.rootP ∧ (h.get p).childR = r.rootP ∧
      repB h (some p) l = true ∧ repB h (some p) r = true := by
  simp [repB, Bool.and_eq_true, and_assoc]

theorem rep_child (h : Heap) (par : Option Nat) (l : BTree) (p : Nat) (r : BTree)
    (hrep : repB h par (.node l p r) = true) (d : Bool) :
    (h.get p).child d = (if d then r else l).rootP := by
  rw [repB_node_iff] at hrep
  cases d <;> simp [AvlNode.child, hrep.2.2.1, hrep.2.2.2.1]

/-- Descending through a context preserves representation. -/
theorem rep_plug_sub (h : Heap) : ∀ (ctx : List Frame) (t : BTree),
    repB h none (plug ctx t) = true → repB h (ctxPar ctx) t = true := by
  intro ctx
  induction ctx with
  | nil => intro t ht; exact ht
  | cons f ctx ih =>
    intro t ht
    obtain ⟨d, p, sib⟩ := f
    cases d
    · simp only [plug] at ht
      have := ih _ ht
      rw [repB_node_iff] at this
      simpa [ctxPar] using this.2.2.2.2.1
    · simp only [plug] at ht
      have := ih _ ht
      rw [repB_node_iff] at this
      simpa [ctxPar] using this.2.2.2.2.2

/-- The head frame's parent points at the hole's subtree. -/
theorem rep_plug_link (h : Heap) : ∀ (ctx : List Frame) (t : BTree) (d : Bool)
    (p : Nat) (sib : BTree), repB h none (plug ((d, p, sib) :: ctx) t) = true →
    (h.get p).child d = t.rootP ∧ (h.get p).child (!d) = sib.rootP := by
  intro ctx t d p sib ht
  cases d
  · simp only [plug] at ht
    have hsub := rep_plug_sub h ctx _ ht
    rw [repB_node_iff] at hsub
    exact ⟨by simp [AvlNode.child, hsub.2.2.1], by simp [AvlNode.child, hsub.2.2.2.1]⟩
  · simp only [plug] at ht
    have hsub := rep_plug_sub h ctx _ ht
    rw [repB_node_iff] at hsub
    exact ⟨by simp [AvlNode.child, hsub.2.2.2.1], by simp [AvlNode.child, hsub.2.2.1]⟩

theorem rootP_mem_inorder : ∀ (t : BTree) (x : Nat), t.rootP = some x → x ∈ t.inorder := by
  intro t x h
  cases t with
  | nil => simp [BTree.rootP] at h
  | node l p r => simp [BTree.rootP] at h; subst h; simp

theorem size_plug_ge : ∀ (ctx : List Frame) (t : BTree),
    (plug ctx t).size ≥ ctx.length + t.size := by
  intro ctx
  induction ctx with
  | nil => intro t; simp [plug]
  | cons f ctx ih =>
    intro t
    obtain ⟨d, p, sib⟩ := f
    cases d <;>
    · have := ih (BTree.node t p sib)
      have := ih (BTree.node sib p t)
      simp only [plug]
      simp [BTree.size] at *
      omega

theorem inorder_infix_of_plug (ctx : List Frame) (t : BTree) :
    ∃ A B, (plug ctx t).inorder = A ++ t.inorder ++ B :=
  ⟨ctxBefore ctx, ctxAfter ctx, inorder_plug ctx t⟩

theorem nodup_sub_of_plug (ctx : List Frame) (t : BTree)
    (hnd : (plug ctx t).inorder.Nodup) : t.inorder.Nodup := by
  rw [inorder_plug] at hnd
  exact ((hnd.of_append_left).of_append_right)

theorem ctxNextUp_true (ctx : List Frame) : ctxNextUp true ctx = (ctxAfter ctx).head? := by
  induction ctx with
  | nil => rfl
  | cons f ctx ih =>
    obtain ⟨d, p, sib⟩ := f
    cases d <;> simp [ctxNextUp, ctxAfter, ih]

theorem ctxNextUp_false (ctx : List Frame) : ctxNextUp false ctx = (ctxBefore ctx).getLast? := by
  induction ctx with
  | nil => rfl
  | cons f ctx ih =>
    obtain ⟨d, p, sib⟩ := f
    cases d <;> simp [ctxNextUp, ctxBefore, ih]

/-- The climbing loop of `avl_prev_next` finds exactly the first ancestor
reached by crossing from the `i` side. -/
theorem climbLoop_spec (h : Heap) (i : Bool) : ∀ (ctx : List Frame) (t : BTree)
    (x : Nat) (fuel : Nat), repB h none (plug ctx t) = true → t.rootP = some x →
    (plug ctx t).inorder.Nodup → fuel ≥ ctx.length + 1 →
    climbLoop h i fuel x = some (ctxNextUp i ctx) := by
  intro ctx
  induction ctx with
  | nil =>
    intro t x fuel hrep hroot hnd hfuel
    obtain ⟨f, rfl⟩ : ∃ f, fuel = f + 1 := ⟨fuel - 1, by omega⟩
    cases t with
    | nil => simp [BTree.rootP] at hroot
    | node l p r =>
      simp [BTree.rootP] at hroot; subst hroot
      simp only [plug] at hrep
      rw [repB_node_iff] at hrep
      rw [climbLoop, hrep.2.1]
      rfl
  | cons f ctx ih =>
    intro t x fuel hrep hroot hnd hfuel
    obtain ⟨fl, rfl⟩ : ∃ fl, fuel = fl + 1 := ⟨fuel - 1, by omega⟩
    obtain ⟨d, p, sib⟩ := f
    have hsub := rep_plug_sub h ((d, p, sib) :: ctx) t hrep
    simp only [ctxPar] at hsub
    have hlink := rep_plug_link h ctx t d p sib hrep
    cases t with
    | nil => simp [BTree.rootP] at hroot
    | node l q r =>
      simp [BTree.rootP] at hroot; subst hroot
      rw [repB_node_iff] at hsub
      rw [climbLoop, hsub.2.1]
      dsimp only
      by_cases hdi : d = i
      · subst hdi
        rw [if_pos (by rw [hlink.1]; rfl)]
        cases d
        · have := ih (BTree.node (BTree.node l q r) p sib) p fl
            (by simpa [plug] using hrep) rfl (by simpa [plug] using hnd)
            (by simp only [List.length_cons] at hfuel; omega)
          simpa [ctxNextUp] using this
        · have := ih (BTree.node sib p (BTree.node l q r)) p fl
            (by simpa [plug] using hrep) rfl (by simpa [plug] using hnd)
            (by simp only [List.length_cons] at hfuel; omega)
          simpa [ctxNextUp] using this
      · have hsib : (h.get p).child i = sib.rootP := by
          have h2 := hlink.2
          have hni : (!d) = i := by
            cases d <;> cases i <;> first | rfl | exact absurd rfl hdi
          rwa [hni] at h2
        have hxsib : q ∉ sib.inorder := by
          intro hx1
          have hx2 : q ∈ (BTree.node l q r).inorder := by simp
          cases d
          · have hndT := nodup_sub_of_plug ctx (BTree.node (BTree.node l q r) p sib)
              (by simpa [plug] using hnd)
            rw [BTree.inorder_node, List.nodup_append] at hndT
            exact (hndT.2.2 hx2) (by simp [hx1])
          · have hndT := nodup_sub_of_plug ctx (BTree.node sib p (BTree.node l q r))
              (by simpa [plug] using hnd)
            rw [BTree.inorder_node, List.nodup_append] at hndT
            exact (hndT.2.2 hx1) (by simp [hx2])
        rw [if_neg (by rw [hsib]; intro hc; exact hxsib (rootP_mem_inorder _ _ hc))]
        simp [ctxNextUp, hdi]

theorem inorder_ne_nil (l : BTree) (p : Nat) (r : BTree) :
    (BTree.node l p r).inorder ≠ [] := by
  simp [BTree.inorder]

theorem getLast?_append_cons (A : List Nat) (p : Nat) (B : List Nat) :
    (A ++ p :: B).getLast? = (p :: B).getLast? := by
  rw [List.getLast?_append]
  have hs : (p :: B).getLast?.isSome := by
    rw [List.getLast?_isSome]; simp
  exact Option.or_of_isSome hs

theorem getLast?_cons_of_ne_nil (p : Nat) (B : List Nat) (hB : B ≠ []) :
    (p :: B).getLast? = B.getLast? := by
  rcases B with _ | ⟨b, B⟩
  · exact absurd rfl hB
  · rw [List.getLast?_cons_cons]

/-- The descending loop of `avl_prev_next` (leftward) finds the first inorder
node of the subtree. -/
theorem descendLoop_leftmost (h : Heap) : ∀ (t : BTree) (par : Option Nat)
    (x fuel : Nat), repB h par t = true → t.rootP = some x → fuel ≥ t.size →
    descendLoop h false fuel x = t.inorder.head? := by
  intro t
  induction t with
  | nil => intro par x fuel _ hroot _; simp [BTree.rootP] at hroot
  | node l p r ihl ihr =>
    intro par x fuel hrep hroot hfuel
    simp [BTree.rootP] at hroot; subst hroot
    simp only [BTree.size] at hfuel
    obtain ⟨f, rfl⟩ : ∃ f, fuel = f + 1 := ⟨fuel - 1, by omega⟩
    rw [repB_node_iff] at hrep
    have hcl : (h.get p).child false = l.rootP := by simp [AvlNode.child, hrep.2.2.1]
    rw [descendLoop, hcl]
    cases l with
    | nil => simp [BTree.rootP, BTree.inorder]
    | node l2 y r2 =>
      simp only [BTree.rootP]
      have hy := ihl (some p) y f hrep.2.2.2.2.1 rfl
        (by simp only [BTree.size] at hfuel ⊢; omega)
      rw [hy]
      conv_rhs => rw [BTree.inorder_node]
      rw [List.head?_append_of_ne_nil _ (inorder_ne_nil l2 y r2)]

/-- The descending loop of `avl_prev_next` (rightward) finds the last inorder
node of the subtree. -/
theorem descendLoop_rightmost (h : Heap) : ∀ (t : BTree) (par : Option Nat)
    (x fuel : Nat), repB h par t = true → t.rootP = some x → fuel ≥ t.size →
    descendLoop h true fuel x = t.inorder.getLast? := by
  intro t
  induction t with
  | nil => intro par x fuel _ hroot _; simp [BTree.rootP] at hroot
  | node l p r ihl ihr =>
    intro par x fuel hrep hroot hfuel
    simp [BTree.rootP] at hroot; subst hroot
    simp only [BTree.size] at hfuel
    obtain ⟨f, rfl⟩ : ∃ f, fuel = f + 1 := ⟨fuel - 1, by omega⟩
    rw [repB_node_iff] at hrep
    have hcr : (h.get p).child true = r.rootP := by simp [AvlNode.child, hrep.2.2.2.1]
    rw [descendLoop, hcr]
    cases r with
    | nil =>
      simp [BTree.rootP, BTree.inorder, getLast?_append_cons]
    | node l2 y r2 =>
      simp only [BTree.rootP]
      have hy := ihr (some p) y f hrep.2.2.2.2.2 rfl
        (by simp only [BTree.size] at hfuel ⊢; omega)
      rw [hy]
      conv_rhs => rw [BTree.inorder_node]
      rw [getLast?_append_cons, getLast?_cons_of_ne_nil _ _ (inorder_ne_nil l2 y r2)]

/-- The loop of `avl_leftmost_rightmost`, leftward. -/
theorem lrLoop_leftmost (h : Heap) : ∀ (t : BTree) (par : Option Nat) (x : Nat)
    (prev : Option Nat) (fuel : Nat), repB h par t = true → t.rootP = some x →
    fuel ≥ t.size → lrLoop h false fuel prev (some x) = some t.inorder.head? := by
  intro t
  induction t with
  | nil => intro par x prev fuel _ hroot _; simp [BTree.rootP] at hroot
  | node l p r ihl ihr =>
    intro par x prev fuel hrep hroot hfuel
    simp [BTree.rootP] at hroot; subst hroot
    simp only [BTree.size] at hfuel
    obtain ⟨f, rfl⟩ : ∃ f, fuel = f + 1 := ⟨fuel - 1, by omega⟩
    rw [repB_node_iff] at hrep
    have hcl : (h.get p).child false = l.rootP := by simp [AvlNode.child, hrep.2.2.1]
    rw [lrLoop, hcl]
    cases l with
    | nil => simp [BTree.rootP, lrLoop, BTree.inorder]
    | node l2 y r2 =>
      simp only [BTree.rootP]
      have hy := ihl (some p) y (some p) f hrep.2.2.2.2.1 rfl
        (by simp only [BTree.size] at hfuel ⊢; omega)
      rw [hy]
      conv_rhs => rw [BTree.inorder_node]
      rw [List.head?_append_of_ne_nil _ (inorder_ne_nil l2 y r2)]

/-- The loop of `avl_leftmost_rightmost`, rightward. -/
theorem lrLoop_rightmost (h : Heap) : ∀ (t : BTree) (par : Option Nat) (x : Nat)
    (prev : Option Nat) (fuel : Nat), repB h par t = true → t.rootP = some x →
    fuel ≥ t.size → lrLoop h true fuel prev (some x) = some t.inorder.getLast? := by
  intro t
  induction t with
  | nil => intro par x prev fuel _ hroot _; simp [BTree.rootP] at hroot
  | node l p r ihl ihr =>
    intro par x prev fuel hrep hroot hfuel
    simp [BTree.rootP] at hroot; subst hroot
    simp only [BTree.size] at hfuel
    obtain ⟨f, rfl⟩ : ∃ f, fuel = f + 1 := ⟨fuel - 1, by omega⟩
    rw [repB_node_iff] at hrep
    have hcr : (h.get p).child true = r.rootP := by simp [AvlNode.child, hrep.2.2.2.1]
    rw [lrLoop, hcr]
    cases r with
    | nil =>
      simp [BTree.rootP, lrLoop, BTree.inorder, getLast?_append_cons]
    | node l2 y r2 =>
      simp only [BTree.rootP]
      have hy := ihr (some p) y (some p) f hrep.2.2.2.2.2 rfl
        (by simp only [BTree.size] at hfuel ⊢; omega)
      rw [hy]
      conv_rhs => rw [BTree.inorder_node]
      rw [getLast?_append_cons, getLast?_cons_of_ne_nil _ _ (inorder_ne_nil l2 y r2)]

/-- `avl_first` returns the head of the inorder sequence. -/
theorem avl_first_spec (h : Heap) (root : Option Nat) (t : BTree) (fuel : Nat)
    (hroot : root = t.rootP) (hrep : repB h none t = true) (hfuel : fuel ≥ t.size) :
    avl_first h root fuel = some t.inorder.head? := by
  cases t with
  | nil =>
    subst hroot
    cases fuel <;> rfl
  | node l p r =>
    subst hroot
    exact lrLoop_leftmost h (.node l p r) none p none fuel hrep rfl hfuel

/-- `avl_last` returns the last element of the inorder sequence. -/
theorem avl_last_spec (h : Heap) (root : Option Nat) (t : BTree) (fuel : Nat)
    (hroot : root = t.rootP) (hrep : repB h none t = true) (hfuel : fuel ≥ t.size) :
    avl_last h root fuel = some t.inorder.getLast? := by
  cases t with
  | nil =>
    subst hroot
    cases fuel <;> rfl
  | node l p r =>
    subst hroot
    exact lrLoop_rightmost h (.node l p r) none p none fuel hrep rfl hfuel

theorem getLast?_append_of_ne_nil (A B : List Nat) (hB : B ≠ []) :
    (A ++ B).getLast? = B.getLast? := by
  rw [List.getLast?_append]
  exact Option.or_of_isSome (by rw [List.getLast?_isSome]; exact hB)

/-- `avl_next` finds the element that follows `x`'s subtree position in the
inorder walk: the head of `r.inorder ++ ctxAfter ctx`. -/
theorem avl_next_ctx (h : Heap) (ctx : List Frame) (l r : BTree) (x : Nat)
    (fuel : Nat) (hrep : repB h none (plug ctx (.node l x r)) = true)
    (hnd : (plug ctx (.node l x r)).inorder.Nodup)
    (hfuel : fuel ≥ (plug ctx (.node l x r)).size) :
    avl_next h fuel x = some (r.inorder ++ ctxAfter ctx).head? := by
  have hsz := size_plug_ge ctx (.node l x r)
  simp only [BTree.size] at hsz
  have hsub := rep_plug_sub h ctx _ hrep
  rw [repB_node_iff] at hsub
  have hcr : (h.get x).child true = r.rootP := by simp [AvlNode.child, hsub.2.2.2.1]
  rw [avl_next, avl_prev_next]
  have hwc : avl_cmp2idx 1 = true := rfl
  rw [hwc, hcr]
  cases r with
  | nil =>
    rw [BTree.rootP]
    have := climbLoop_spec h true ctx (.node l x .nil) x fuel hrep rfl hnd (by omega)
    rw [this, ctxNextUp_true]
    simp
  | node l2 y r2 =>
    rw [BTree.rootP]
    have hd := descendLoop_leftmost h (.node l2 y r2) (some x) y fuel
      hsub.2.2.2.2.2 rfl (by omega)
    show (descendLoop h false fuel y).map some = _
    rw [hd, List.head?_append_of_ne_nil _ (inorder_ne_nil l2 y r2)]
    obtain ⟨hd', hhd⟩ := Option.isSome_iff_exists.1
      (by rw [List.head?_isSome]; exact inorder_ne_nil l2 y r2)
    rw [hhd]
    rfl

/-- `avl_prev` finds the element that precedes `x`'s subtree position in the
inorder walk: the last element of `ctxBefore ctx ++ l.inorder`. -/
theorem avl_prev_ctx (h : Heap) (ctx : List Frame) (l r : BTree) (x : Nat)
    (fuel : Nat) (hrep : repB h none (plug ctx (.node l x r)) = true)
    (hnd : (plug ctx (.node l x r)).inorder.Nodup)
    (hfuel : fuel ≥ (plug ctx (.node l x r)).size) :
    avl_prev h fuel x = some (ctxBefore ctx ++ l.inorder).getLast? := by
  have hsz := size_plug_ge ctx (.node l x r)
  simp only [BTree.size] at hsz
  have hsub := rep_plug_sub h ctx _ hrep
  rw [repB_node_iff] at hsub
  have hcl : (h.get x).child false = l.rootP := by simp [AvlNode.child, hsub.2.2.1]
  rw [avl_prev, avl_prev_next]
  have hwc : avl_cmp2idx (-1) = false := rfl
  rw [hwc, hcl]
  cases l with
  | nil =>
    rw [BTree.rootP]
    have := climbLoop_spec h false ctx (.node .nil x r) x fuel hrep rfl hnd (by omega)
    rw [this, ctxNextUp_false]
    simp
  | node l2 y r2 =>
    rw [BTree.rootP]
    have hd := descendLoop_rightmost h (.node l2 y r2) (some x) y fuel
      hsub.2.2.2.2.1 rfl (by omega)
    show (descendLoop h true fuel y).map some = _
    rw [hd, getLast?_append_of_ne_nil _ _ (inorder_ne_nil l2 y r2)]
    obtain ⟨hd', hhd⟩ := Option.isSome_iff_exists.1
      (by rw [List.getLast?_isSome]; exact inorder_ne_nil l2 y r2)
    rw [hhd]
    rfl

/-- In a duplicate-free list, the split at an element is unique. -/
theorem nodup_append_cons_inj (x : Nat) : ∀ (A C B D : List Nat),
    (A ++ x :: B).Nodup → A ++ x :: B = C ++ x :: D → A = C ∧ B = D := by
  intro A
  induction A with
  | nil =>
    intro C B D hnd heq
    cases C with
    | nil => simpa using heq
    | cons c C =>
      simp only [List.nil_append, List.cons_append] at heq
      rw [List.cons_eq_cons] at heq
      obtain ⟨rfl, heq2⟩ := heq
      rw [List.nil_append, List.nodup_cons] at hnd
      exact absurd (by rw [heq2]; simp) hnd.1
  | cons a A ih =>
    intro C B D hnd heq
    cases C with
    | nil =>
      simp only [List.cons_append, List.nil_append] at heq
      rw [List.cons_eq_cons] at heq
      obtain ⟨rfl, heq2⟩ := heq
      rw [List.cons_append, List.nodup_cons] at hnd
      exact absurd (by simp) hnd.1
    | cons c C =>
      simp only [List.cons_append] at heq
      rw [List.cons_eq_cons] at heq
      obtain ⟨rfl, heq2⟩ := heq
      rw [List.cons_append, List.nodup_cons] at hnd
      obtain ⟨hA, hB⟩ := ih C B D hnd.2 heq2
      exact ⟨by rw [hA], hB⟩

/-- `avl_next` returns exactly the next element of the inorder listing. -/
theorem avl_next_inorder (h : Heap) (t : BTree) (x : Nat) (P S : List Nat)
    (fuel : Nat) (hrep : repB h none t = true) (hnd : t.inorder.Nodup)
    (hdec : t.inorder = P ++ x :: S) (hfuel : fuel ≥ t.size) :
    avl_next h fuel x = some S.head? := by
  have hx : x ∈ t.inorder := by rw [hdec]; simp
  obtain ⟨ctx, l, r, hctx⟩ := mem_inorder_decomp t x hx
  subst hctx
  have hnext := avl_next_ctx h ctx l r x fuel hrep hnd hfuel
  have hdec2 : (plug ctx (BTree.node l x r)).inorder =
      (ctxBefore ctx ++ l.inorder) ++ x :: (r.inorder ++ ctxAfter ctx) := by
    rw [inorder_plug, BTree.inorder_node]
    simp [List.append_assoc]
  have huniq := nodup_append_cons_inj x (ctxBefore ctx ++ l.inorder) P
    (r.inorder ++ ctxAfter ctx) S (by rw [← hdec2]; exact hnd)
    (by rw [← hdec2, hdec])
  rw [hnext, huniq.2]

/-- `avl_prev` returns exactly the previous element of the inorder listing. -/
theorem avl_prev_inorder (h : Heap) (t : BTree) (x : Nat) (P S : List Nat)
    (fuel : Nat) (hrep : repB h none t = true) (hnd : t.inorder.Nodup)
    (hdec : t.inorder = P ++ x :: S) (hfuel : fuel ≥ t.size) :
    avl_prev h fuel x = some P.getLast? := by
  have hx : x ∈ t.inorder := by rw [hdec]; simp
  obtain ⟨ctx, l, r, hctx⟩ := mem_inorder_decomp t x hx
  subst hctx
  have hprev := avl_prev_ctx h ctx l r x fuel hrep hnd hfuel
  have hdec2 : (plug ctx (BTree.node l x r)).inorder =
      (ctxBefore ctx ++ l.inorder) ++ x :: (r.inorder ++ ctxAfter ctx) := by
    rw [inorder_plug, BTree.inorder_node]
    simp [List.append_assoc]
  have huniq := nodup_append_cons_inj x (ctxBefore ctx ++ l.inorder) P
    (r.inorder ++ ctxAfter ctx) S (by rw [← hdec2]; exact hnd)
    (by rw [← hdec2, hdec])
  rw [hprev, huniq.1]

/-- C8: for a node `x` with both an inorder predecessor `u` and successor `v`
present, `avl_prev (avl_next x) = x` and `avl_next (avl_prev x) = x`: the
successor of `x` is `v` whose predecessor is `x`, and the predecessor of `x`
is `u` whose successor is `x`. -/
theorem C8_prev_next_inverse (h : Heap) (root : Option Nat) (t : BTree)
    (x u v : Nat) (P S : List Nat) (fuel : Nat)
    (hwf : wfB h root t = true)
    (hdec : t.inorder = P ++ u :: x :: v :: S)
    (hfuel : fuel ≥ t.size) :
    (avl_next h fuel x = some (some v) ∧ avl_prev h fuel v = some (some x)) ∧
    (avl_prev h fuel x = some (some u) ∧ avl_next h fuel u = some (some x)) := by
  have hrep : repB h none t = true := by
    simp only [wfB, Bool.and_eq_true] at hwf; exact hwf.1.2
  have hnd : t.inorder.Nodup := by
    simp only [wfB, Bool.and_eq_true] at hwf
    exact (by simpa using hwf.2 : t.inorder.Nodup)
  refine ⟨⟨?_, ?_⟩, ⟨?_, ?_⟩⟩
  · have := avl_next_inorder h t x (P ++ [u]) (v :: S) fuel hrep hnd
      (by rw [hdec]; simp) hfuel
    simpa using this
  · have := avl_prev_inorder h t v (P ++ [u, x]) S fuel hrep hnd
      (by rw [hdec]; simp) hfuel
    rw [this]
    rw [getLast?_append_cons, getLast?_cons_of_ne_nil _ _ (by simp)]
    rfl
  · have := avl_prev_inorder h t x (P ++ [u]) (v :: S) fuel hrep hnd
      (by rw [hdec]; simp) hfuel
    rw [this]
    rw [getLast?_append_cons]
    rfl
  · have := avl_next_inorder h t u P (x :: v :: S) fuel hrep hnd
      (by rw [hdec]) hfuel
    simpa using this

/-- A 3-node perfectly balanced heap used by several witnesses. -/
def wit3Heap : Heap :=
  [(1, ⟨none, none, some 2, 0⟩), (2, ⟨some 1, some 3, none, 0⟩),
   (3, ⟨none, none, some 2, 0⟩)]

def wit3Tree : BTree := .node (.node .nil 1 .nil) 2 (.node .nil 3 .nil)

theorem C8_prev_next_inverse_witness :
    (avl_next wit3Heap 4 2 = some (some 3) ∧ avl_prev wit3Heap 4 3 = some (some 2)) ∧
    (avl_prev wit3Heap 4 2 = some (some 1) ∧ avl_next wit3Heap 4 1 = some (some 2)) :=
  C8_prev_next_inverse wit3Heap (some 2) wit3Tree 2 1 3 [] [] 4
    (by decide) (by decide) (by decide)

/-- A three-way comparator is faithful to a key assignment when its sign is
exactly the order of the keys (§4.1's comparator contract). -/
def CmpFaithful (cmp : Nat → Nat → Int) (key : Nat → Int) : Prop :=
  ∀ a b, (cmp a b < 0 ↔ key a < key b) ∧ (cmp a b = 0 ↔ key a = key b)

/-- The canonical faithful comparator of a key assignment. -/
def cmpOf (key : Nat → Int) (a b : Nat) : Int := key a - key b

theorem cmpOf_faithful (key : Nat → Int) : CmpFaithful (cmpOf key) key := by
  intro a b
  unfold cmpOf
  omega

theorem bstOk_node_iff (key : Nat → Int) (l : BTree) (p : Nat) (r : BTree) :
    bstOkB key (.node l p r) = true ↔
      bstOkB key l = true ∧ bstOkB key r = true ∧
      (∀ a ∈ l.inorder, key a < key p) ∧
      (∀ b ∈ r.inorder, key p < key b) ∧
      (∀ a ∈ l.inorder, ∀ b ∈ r.inorder, key a < key b) := by
  simp only [bstOkB, BTree.inorder_node, decide_eq_true_eq, List.pairwise_append,
    List.pairwise_cons, List.mem_cons]
  constructor
  · rintro ⟨hl, ⟨hp, hr⟩, hcross⟩
    refine ⟨by simpa [bstOkB] using hl, by simpa [bstOkB] using hr, ?_, hp, ?_⟩
    · intro a ha; exact hcross a ha p (Or.inl rfl)
    · intro a ha b hb; exact hcross a ha b (Or.inr hb)
  · rintro ⟨hl, hr, hlp, hpr, hlr⟩
    refine ⟨by simpa [bstOkB] using hl, ⟨hpr, by simpa [bstOkB] using hr⟩, ?_⟩
    rintro a ha b (rfl | hb)
    · exact hlp a ha
    · exact hlr a ha b hb

/-- The binary-search descent of `avl_insert` finds the (unique) node whose
key equals the probe's. -/
theorem insertFind_dup (h : Heap) (cmp : Nat → Nat → Int) (key : Nat → Int)
    (hcmp : CmpFaithful cmp key) (x : Nat) :
    ∀ (t : BTree) (par : Option Nat) (slot : Option (Nat × Bool)) (fuel : Nat)
      (y : Nat), repB h par t = true → bstOkB key t = true → y ∈ t.inorder →
      key y = key x → fuel ≥ t.size →
      insertFind h cmp x fuel t.rootP slot = some (.found y) := by
  intro t
  induction t with
  | nil => intro par slot fuel y _ _ hy; simp [BTree.inorder] at hy
  | node l p r ihl ihr =>
    intro par slot fuel y hrep hbst hy hkey hfuel
    simp only [BTree.size] at hfuel
    obtain ⟨f, rfl⟩ : ∃ f, fuel = f + 1 := ⟨fuel - 1, by omega⟩
    rw [repB_node_iff] at hrep
    rw [bstOk_node_iff] at hbst
    rw [BTree.rootP, insertFind]
    rcases lt_trichotomy (key x) (key p) with hlt | heq | hgt
    · have hc : cmp x p < 0 := (hcmp x p).1.2 hlt
      rw [if_neg (by omega)]
      have hidx : avl_cmp2idx (cmp x p) = false := by
        simp [avl_cmp2idx, hc]
      rw [hidx]
      have hcl : (h.get p).child false = l.rootP := by simp [AvlNode.child, hrep.2.2.1]
      rw [hcl]
      have hyl : y ∈ l.inorder := by
        rcases List.mem_append.1 hy with hl | hpr
        · exact hl
        · rcases List.mem_cons.1 hpr with rfl | hr
          · omega
          · exact absurd hkey (by have := hbst.2.2.2.1 y hr; omega)
      exact ihl (some p) (some (p, false)) f y hrep.2.2.2.2.1 hbst.1 hyl hkey (by omega)
    · have hc : cmp x p = 0 := (hcmp x p).2.2 heq
      rw [if_pos hc]
      have hyp : y = p := by
        rcases List.mem_append.1 hy with hl | hpr
        · exact absurd hkey (by have := hbst.2.2.1 y hl; omega)
        · rcases List.mem_cons.1 hpr with rfl | hr
          · rfl
          · exact absurd hkey (by have := hbst.2.2.2.1 y hr; omega)
      rw [hyp]
    · have hc0 : ¬ (cmp x p = 0) := by
        intro hc; exact absurd ((hcmp x p).2.1 hc) (by omega)
      have hcneg : ¬ (cmp x p < 0) := by
        intro hc; exact absurd ((hcmp x p).1.1 hc) (by omega)
      rw [if_neg hc0]
      have hidx : avl_cmp2idx (cmp x p) = true := by
        simp [avl_cmp2idx]; omega
      rw [hidx]
      have hcr : (h.get p).child true = r.rootP := by simp [AvlNode.child, hrep.2.2.2.1]
      rw [hcr]
      have hyr : y ∈ r.inorder := by
        rcases List.mem_append.1 hy with hl | hpr
        · exact absurd hkey (by have := hbst.2.2.1 y hl; omega)
        · rcases List.mem_cons.1 hpr with rfl | hr
          · omega
          · exact hr
      exact ihr (some p) (some (p, true)) f y hrep.2.2.2.2.2 hbst.2.1 hyr hkey (by omega)

/-- C3: inserting a node whose key is already present returns the
pre-existing node and changes nothing at all: the returned heap and root
handle are literally the ones passed in (so no field of any node, the new
node included, is written and no rotation happens). -/
theorem C3_duplicate_insert (h : Heap) (root : Option Nat) (t : BTree)
    (x y : Nat) (cmp : Nat → Nat → Int) (key : Nat → Int) (fuel : Nat)
    (hcmp : CmpFaithful cmp key) (hwf : wfB h root t = true)
    (hbst : bstOkB key t = true) (hy : y ∈ t.inorder) (hkey : key y = key x)
    (hfuel : fuel ≥ t.size) :
    avl_insert h root x cmp fuel = some (h, root, y, 0) := by
  simp only [wfB, Bool.and_eq_true, beq_iff_eq] at hwf
  rw [avl_insert, hwf.1.1,
    insertFind_dup h cmp key hcmp x t none none fuel y hwf.1.2 hbst hy hkey hfuel]

def key9 (p : Nat) : Int := if p = 9 then 2 else (p : Int)

theorem C3_duplicate_insert_witness :
    avl_insert wit3Heap (some 2) 9 (cmpOf key9) 5 = some (wit3Heap, some 2, 2, 0) :=
  C3_duplicate_insert wit3Heap (some 2) wit3Tree 9 2 (cmpOf key9) key9 5
    (cmpOf_faithful key9) (by decide) (by decide) (by decide) (by decide) (by decide)

theorem mem_of_head? : ∀ {l : List Nat} {a : Nat}, l.head? = some a → a ∈ l := by
  intro l a h
  cases l with
  | nil => simp at h
  | cons b l => simp at h; simp [h]

theorem mem_of_getLast? : ∀ {l : List Nat} {a : Nat}, l.getLast? = some a → a ∈ l := by
  intro l
  induction l with
  | nil => intro a h; simp at h
  | cons b l ih =>
    intro a h
    cases hl : l with
    | nil => subst hl; simp at h; simp [h]
    | cons c l2 =>
      rw [hl] at ih
      rw [getLast?_cons_of_ne_nil b l (by rw [hl]; simp)] at h
      rw [hl] at h
      exact List.mem_cons_of_mem b (ih h)

theorem height_eq_zero_iff (t : BTree) : t.height = 0 ↔ t = .nil := by
  cases t <;> simp [BTree.height]

/-- C9: removing a member node that has at least one child, in a tree whose
balance fields are accurate, the balance-sign heuristic's preferred
replacement (predecessor if balance < 0, else successor) exists and lies
strictly inside the removed node's own subtree; the fallback call in the
opposite direction is never executed, and `avl_remove` proceeds to the splice
with that replacement. -/
theorem C9_replacement_in_subtree (h : Heap) (root : Option Nat)
    (ctx : List Frame) (l r : BTree) (x : Nat) (fuel : Nat)
    (hrep : repB h none (plug ctx (.node l x r)) = true)
    (hnd : (plug ctx (.node l x r)).inorder.Nodup)
    (hbal : (h.get x).avl_balance = (r.height : Int) - (l.height : Int))
    (hchild : ¬ (l = .nil ∧ r = .nil))
    (hfuel : fuel ≥ (plug ctx (.node l x r)).size) :
    ∃ c, avl_prev_next h fuel x
        (if (h.get x).avl_balance < 0 then -1 else 1) = some (some c) ∧
      c ∈ (BTree.node l x r).inorder ∧ c ≠ x ∧
      avl_remove h root x fuel = removeSplice h root x fuel c := by
  have hsz := size_plug_ge ctx (.node l x r)
  simp only [BTree.size] at hsz
  have hsub := rep_plug_sub h ctx _ hrep
  rw [repB_node_iff] at hsub
  have hndsub := nodup_sub_of_plug ctx _ hnd
  rw [BTree.inorder_node, List.nodup_append] at hndsub
  have hxl : x ∉ l.inorder := fun hx => hndsub.2.2 hx (by simp)
  have hxr : x ∉ r.inorder := by
    have := hndsub.2.1
    rw [List.nodup_cons] at this
    exact this.1
  have hcl : (h.get x).child false = l.rootP := by simp [AvlNode.child, hsub.2.2.1]
  have hcr : (h.get x).child true = r.rootP := by simp [AvlNode.child, hsub.2.2.2.1]
  by_cases hblt : (h.get x).avl_balance < 0
  · have hlh : l.height ≥ 1 := by
      rcases Nat.eq_zero_or_pos l.height with h0 | h1
      · rw [hbal] at hblt; omega
      · omega
    cases l with
    | nil => simp [BTree.height] at hlh
    | node l2 y r2 =>
      have hdesc := descendLoop_rightmost h (.node l2 y r2) (some x) y fuel
        hsub.2.2.2.2.1 rfl (by omega)
      obtain ⟨c, hc⟩ := Option.isSome_iff_exists.1
        (by rw [List.getLast?_isSome]; exact inorder_ne_nil l2 y r2 :
          ((BTree.node l2 y r2).inorder.getLast?).isSome)
      rw [if_pos hblt]
      refine ⟨c, ?_, ?_, ?_, ?_⟩
      · rw [avl_prev_next]
        have : avl_cmp2idx (-1) = false := rfl
        rw [this, hcl, BTree.rootP]
        show (descendLoop h true fuel y).map some = _
        rw [hdesc, hc]
        rfl
      · have hmem : c ∈ (BTree.node l2 y r2).inorder := mem_of_getLast? hc
        simp only [BTree.inorder_node, List.mem_append, List.mem_cons] at hmem ⊢
        tauto
      · intro hcx
        subst hcx
        exact hxl (mem_of_getLast? hc)
      · rw [avl_remove]
        rw [if_neg (by rw [hcl]; simp [BTree.rootP])]
        simp only [if_pos hblt]
        have hpn : avl_prev_next h fuel x (-1) = some (some c) := by
          rw [avl_prev_next]
          have : avl_cmp2idx (-1) = false := rfl
          rw [this, hcl, BTree.rootP]
          show (descendLoop h true fuel y).map some = _
          rw [hdesc, hc]
          rfl
        rw [hpn]
  · have hrh : r.height ≥ 1 := by
      rcases Nat.eq_zero_or_pos r.height with h0 | h1
      · exfalso
        rw [hbal] at hblt
        have hlh0 : l.height = 0 := by omega
        exact hchild ⟨(height_eq_zero_iff l).1 hlh0, (height_eq_zero_iff r).1 h0⟩
      · omega
    cases r with
    | nil => simp [BTree.height] at hrh
    | node l2 y r2 =>
      have hdesc := descendLoop_leftmost h (.node l2 y r2) (some x) y fuel
        hsub.2.2.2.2.2 rfl (by omega)
      obtain ⟨c, hc⟩ := Option.isSome_iff_exists.1
        (by rw [List.head?_isSome]; exact inorder_ne_nil l2 y r2 :
          ((BTree.node l2 y r2).inorder.head?).isSome)
      rw [if_neg hblt]
      refine ⟨c, ?_, ?_, ?_, ?_⟩
      · rw [avl_prev_next]
        have : avl_cmp2idx 1 = true := rfl
        rw [this, hcr, BTree.rootP]
        show (descendLoop h false fuel y).map some = _
        rw [hdesc, hc]
        rfl
      · have hmem : c ∈ (BTree.node l2 y r2).inorder := mem_of_head? hc
        simp only [BTree.inorder_node, List.mem_append, List.mem_cons] at hmem ⊢
        tauto
      · intro hcx
        subst hcx
        exact hxr (mem_of_head? hc)
      · rw [avl_remove]
        rw [if_neg (by rw [hcr]; simp [BTree.rootP])]
        simp only [if_neg hblt]
        have hpn : avl_prev_next h fuel x 1 = some (some c) := by
          rw [avl_prev_next]
          have : avl_cmp2idx 1 = true := rfl
          rw [this, hcr, BTree.rootP]
          show (descendLoop h false fuel y).map some = _
          rw [hdesc, hc]
          rfl
        rw [hpn]

theorem C9_replacement_in_subtree_witness :
    avl_remove wit3Heap (some 2) 2 4 = removeSplice wit3Heap (some 2) 2 4 3 := by
  obtain ⟨c, h1, _, _, h4⟩ := C9_replacement_in_subtree wit3Heap (some 2) []
    (.node .nil 1 .nil) (.node .nil 3 .nil) 2 4 (by decide) (by decide) (by decide)
    (by decide) (by decide)
  have hval : avl_prev_next wit3Heap 4 2
      (if (wit3Heap.get 2).avl_balance < 0 then -1 else 1) = some (some 3) := by
    decide
  have hc3 : c = 3 := by
    have := hval.symm.trans h1
    simpa using this.symm
  subst hc3
  exact h4

/-! ## Congruence and grafting lemmas for representation -/

theorem get_congr {h h' : Heap} {q : Nat} (he : h'.lk q = h.lk q) :
    h'.get q = h.get q := by
  unfold Heap.get
  rw [he]

theorem lk_eq_get_of_isSome {h : Heap} {p : Nat} (hs : (h.lk p).isSome = true) :
    h.lk p = some (h.get p) := by
  unfold Heap.get
  obtain ⟨n, hn⟩ := Option.isSome_iff_exists.1 hs
  rw [hn]
  rfl

theorem setChild_self {n : AvlNode} {i : Bool} {v : Option Nat}
    (hv : n.child i = v) : n.setChild i v = n := by
  cases n
  cases i <;> simp_all [AvlNode.child, AvlNode.setChild]

theorem repB_congr (h h' : Heap) : ∀ (t : BTree) (par : Option Nat),
    (∀ q ∈ t.inorder, h'.lk q = h.lk q) → repB h' par t = repB h par t := by
  intro t
  induction t with
  | nil => intro par _; rfl
  | node l p r ihl ihr =>
    intro par hag
    have hp : h'.lk p = h.lk p := hag p (by simp)
    have hgp : h'.get p = h.get p := get_congr hp
    simp only [repB, hp, hgp,
      ihl (some p) (fun q hq => hag q (by simp [hq])),
      ihr (some p) (fun q hq => hag q (by simp [hq]))]

theorem balOkB_congr_bal (h h' : Heap) : ∀ (t : BTree),
    (∀ q ∈ t.inorder, (h'.get q).avl_balance = (h.get q).avl_balance) →
    balOkB h' t = balOkB h t := by
  intro t
  induction t with
  | nil => intro _; rfl
  | node l p r ihl ihr =>
    intro hag
    simp only [balOkB, hag p (by simp),
      ihl (fun q hq => hag q (by simp [hq])),
      ihr (fun q hq => hag q (by simp [hq]))]

/-- Reparenting a subtree: only the root's parent field changed. -/
theorem repB_reparent (h h' : Heap) (l r : BTree) (x : Nat) (par par' : Option Nat)
    (hrep : repB h par (.node l x r) = true)
    (hnd : (BTree.node l x r).inorder.Nodup)
    (hx : h'.lk x = some ((h.get x).setParent par'))
    (hother : ∀ q ∈ (BTree.node l x r).inorder, q ≠ x → h'.lk q = h.lk q) :
    repB h' par' (.node l x r) = true := by
  rw [repB_node_iff] at hrep ⊢
  have hgx : h'.get x = (h.get x).setParent par' := by
    unfold Heap.get; rw [hx]; rfl
  rw [BTree.inorder_node, List.nodup_append, List.nodup_cons] at hnd
  have hxl : x ∉ l.inorder := fun hm => hnd.2.2 hm (by simp)
  have hxr : x ∉ r.inorder := hnd.2.1.1
  refine ⟨by rw [hx]; rfl, by rw [hgx]; simp, by rw [hgx]; simpa using hrep.2.2.1,
    by rw [hgx]; simpa using hrep.2.2.2.1, ?_, ?_⟩
  · rw [repB_congr h h' l (some x)
      (fun q hq => hother q (by simp [hq]) (fun he => hxl (he ▸ hq)))]
    exact hrep.2.2.2.2.1
  · rw [repB_congr h h' r (some x)
      (fun q hq => hother q (by simp [hq]) (fun he => hxr (he ▸ hq)))]
    exact hrep.2.2.2.2.2

/-- What the one parent-slot write of a graft does to the heap, as seen by
`Heap.lk`. -/
def slotWrite (h : Heap) (ctx : List Frame) (v : Option Nat) (q : Nat) :
    Option AvlNode :=
  match ctx with
  | [] => h.lk q
  | (d, p, _) :: _ => if q = p then some ((h.get p).setChild d v) else h.lk q

theorem mem_plug_of_mem (ctx : List Frame) (t : BTree) (q : Nat)
    (hq : q ∈ t.inorder) : q ∈ (plug ctx t).inorder := by
  rw [inorder_plug]; simp [hq]

theorem rep_head_isSome (h : Heap) : ∀ (ctx : List Frame) (d : Bool) (p : Nat)
    (sib t : BTree), repB h none (plug ((d, p, sib) :: ctx) t) = true →
    (h.lk p).isSome = true := by
  intro ctx d p sib t hrep
  cases d <;>
  · simp only [plug] at hrep
    have := rep_plug_sub h ctx _ hrep
    rw [repB_node_iff] at this
    exact this.1

@[simp] theorem setChild_false_childL (n : AvlNode) (v : Option Nat) :
    (n.setChild false v).childL = v := rfl

@[simp] theorem setChild_false_childR (n : AvlNode) (v : Option Nat) :
    (n.setChild false v).childR = n.childR := rfl

@[simp] theorem setChild_true_childR (n : AvlNode) (v : Option Nat) :
    (n.setChild true v).childR = v := rfl

@[simp] theorem setChild_true_childL (n : AvlNode) (v : Option Nat) :
    (n.setChild true v).childL = n.childL := rfl

/-- Grafting a new subtree into the hole of a context: if the new heap
represents the new subtree at the hole, and every other node of the tree is
unchanged except for the hole parent's child slot now pointing at the new
subtree, the whole tree is represented. -/
theorem repB_plug_graft : ∀ (ctx : List Frame) (s s' : BTree) (h h' : Heap),
    repB h none (plug ctx s) = true →
    (plug ctx s).inorder.Nodup →
    repB h' (ctxPar ctx) s' = true →
    (∀ q, q ∈ (plug ctx s).inorder → q ∉ s.inorder →
      h'.lk q = slotWrite h ctx s'.rootP q) →
    repB h' none (plug ctx s') = true := by
  intro ctx
  induction ctx with
  | nil => intro s s' h h' _ _ hrep' _; exact hrep'
  | cons f ctx ih =>
    intro s s' h h' hrep hnd hrep' hag
    obtain ⟨d, p, sib⟩ := f
    cases d
    all_goals simp only [plug] at hrep hnd ⊢
    case false =>
      have hsubT := rep_plug_sub h ctx _ hrep
      rw [repB_node_iff] at hsubT
      have hndT := nodup_sub_of_plug ctx _ hnd
      rw [BTree.inorder_node, List.nodup_append, List.nodup_cons] at hndT
      have hps : p ∉ s.inorder := fun hm => hndT.2.2 hm (by simp)
      have hpsib : p ∉ sib.inorder := hndT.2.1.1
      have hagp := hag p (mem_plug_of_mem ctx _ p (by simp)) hps
      simp only [slotWrite] at hagp
      rw [if_true] at hagp
      refine ih _ (BTree.node s' p sib) h h' hrep hnd ?_ ?_
      · rw [repB_node_iff]
        have hgp : h'.get p = (h.get p).setChild false s'.rootP := by
          unfold Heap.get; rw [hagp]; rfl
        refine ⟨by rw [hagp]; rfl, by rw [hgp]; simpa using hsubT.2.1,
          by rw [hgp]; simp, by rw [hgp]; simpa using hsubT.2.2.2.1,
          by simpa [ctxPar] using hrep', ?_⟩
        rw [repB_congr h h' sib (some p) ?_]
        · exact hsubT.2.2.2.2.2
        · intro q hq
          have hqs : q ∉ s.inorder :=
            List.disjoint_right.1 hndT.2.2 (by simp [hq])
          have hqa := hag q (mem_plug_of_mem ctx _ q (by simp [hq])) hqs
          simp only [slotWrite] at hqa
          rw [hqa, if_neg (fun he => hpsib (by cases he; exact hq))]
      · intro q hq hq2
        simp only [BTree.inorder_node, List.mem_append, List.mem_cons] at hq2
        push_neg at hq2
        have hqa := hag q hq hq2.1
        simp only [slotWrite] at hqa
        rw [hqa, if_neg hq2.2.1]
        cases hc : ctx with
        | nil => simp [slotWrite]
        | cons f2 ctx2 =>
          obtain ⟨d2, p2, sib2⟩ := f2
          simp only [slotWrite]
          by_cases hqp2 : q = p2
          · rw [if_pos hqp2]
            have hrepT : repB h none (plug ((d2, p2, sib2) :: ctx2)
                (BTree.node s p sib)) = true := by rw [← hc]; exact hrep
            have hlink2 := rep_plug_link h ctx2 (BTree.node s p sib) d2 p2 sib2 hrepT
            have hself : (h.get p2).setChild d2 (BTree.node s' p sib).rootP
                = h.get p2 := setChild_self (by rw [hlink2.1]; rfl)
            rw [hself, ← lk_eq_get_of_isSome (rep_head_isSome h ctx2 d2 p2 sib2 _ hrepT),
              hqp2]
          · rw [if_neg hqp2]
    case true =>
      have hsubT := rep_plug_sub h ctx _ hrep
      rw [repB_node_iff] at hsubT
      have hndT := nodup_sub_of_plug ctx _ hnd
      rw [BTree.inorder_node, List.nodup_append, List.nodup_cons] at hndT
      have hps : p ∉ s.inorder := hndT.2.1.1
      have hpsib : p ∉ sib.inorder := fun hm => hndT.2.2 hm (by simp)
      have hagp := hag p (mem_plug_of_mem ctx _ p (by simp)) hps
      simp only [slotWrite] at hagp
      rw [if_true] at hagp
      refine ih _ (BTree.node sib p s') h h' hrep hnd ?_ ?_
      · rw [repB_node_iff]
        have hgp : h'.get p = (h.get p).setChild true s'.rootP := by
          unfold Heap.get; rw [hagp]; rfl
        refine ⟨by rw [hagp]; rfl, by rw [hgp]; simpa using hsubT.2.1,
          by rw [hgp]; simpa using hsubT.2.2.1, by rw [hgp]; simp,
          ?_, by simpa [ctxPar] using hrep'⟩
        rw [repB_congr h h' sib (some p) ?_]
        · exact hsubT.2.2.2.2.1
        · intro q hq
          have hqs : q ∉ s.inorder := fun hm =>
            (List.disjoint_right.1 hndT.2.2) (by simp [hm]) hq
          have hqa := hag q (mem_plug_of_mem ctx _ q (by simp [hq])) hqs
          simp only [slotWrite] at hqa
          rw [hqa, if_neg (fun he => hpsib (by cases he; exact hq))]
      · intro q hq hq2
        simp only [BTree.inorder_node, List.mem_append, List.mem_cons] at hq2
        push_neg at hq2
        have hqa := hag q hq hq2.2.2
        simp only [slotWrite] at hqa
        rw [hqa, if_neg hq2.2.1]
        cases hc : ctx with
        | nil => simp [slotWrite]
        | cons f2 ctx2 =>
          obtain ⟨d2, p2, sib2⟩ := f2
          simp only [slotWrite]
          by_cases hqp2 : q = p2
          · rw [if_pos hqp2]
            have hrepT : repB h none (plug ((d2, p2, sib2) :: ctx2)
                (BTree.node sib p s)) = true := by rw [← hc]; exact hrep
            have hlink2 := rep_plug_link h ctx2 (BTree.node sib p s) d2 p2 sib2 hrepT
            have hself : (h.get p2).setChild d2 (BTree.node sib p s').rootP
                = h.get p2 := setChild_self (by rw [hlink2.1]; rfl)
            rw [hself, ← lk_eq_get_of_isSome (rep_head_isSome h ctx2 d2 p2 sib2 _ hrepT),
              hqp2]
          · rw [if_neg hqp2]

theorem balOk_node_iff (h : Heap) (l : BTree) (p : Nat) (r : BTree) :
    balOkB h (.node l p r) = true ↔
      (h.get p).avl_balance = (r.height : Int) - (l.height : Int) ∧
      balOkB h l = true ∧ balOkB h r = true := by
  simp [balOkB, Bool.and_eq_true, and_assoc]

theorem avlOk_node_iff (l : BTree) (p : Nat) (r : BTree) :
    avlOkB (.node l p r) = true ↔
      avl_abs_balance ((r.height : Int) - (l.height : Int)) ≤ 1 ∧
      avlOkB l = true ∧ avlOkB r = true := by
  simp [avlOkB, Bool.and_eq_true, and_assoc]

theorem avl_abs_balance_le_one (b : Int) : avl_abs_balance b ≤ 1 ↔ -1 ≤ b ∧ b ≤ 1 := by
  unfold avl_abs_balance
  split <;> omega

theorem avl_abs_balance_eq_zero (b : Int) : avl_abs_balance b = 0 ↔ b = 0 := by
  unfold avl_abs_balance
  split <;> omega

theorem avl_abs_balance_eq_one (b : Int) : avl_abs_balance b = 1 ↔ b = 1 ∨ b = -1 := by
  unfold avl_abs_balance
  split <;> omega

theorem nodup_node_facts (l : BTree) (p : Nat) (r : BTree)
    (hnd : (BTree.node l p r).inorder.Nodup) :
    p ∉ l.inorder ∧ p ∉ r.inorder ∧ l.inorder.Nodup ∧ r.inorder.Nodup ∧
    (∀ q ∈ l.inorder, q ∉ r.inorder) := by
  rw [BTree.inorder_node, List.nodup_append, List.nodup_cons] at hnd
  exact ⟨fun hm => hnd.2.2 hm (by simp), hnd.2.1.1, hnd.1, hnd.2.1.2,
    fun q hq hm => hnd.2.2 hq (by simp [hm])⟩

theorem rootP_plug_congr : ∀ (ctx : List Frame) (t t' : BTree),
    t.rootP = t'.rootP → (plug ctx t).rootP = (plug ctx t').rootP := by
  intro ctx
  induction ctx with
  | nil => intro t t' hr; exact hr
  | cons f ctx ih =>
    intro t t' _
    obtain ⟨d, p, sib⟩ := f
    cases d <;> exact ih _ _ rfl

/-- The root of a sibling subtree is not the hole's root. -/
theorem sibling_root_ne (h : Heap) (ctx : List Frame) (d : Bool) (p : Nat)
    (sib l r : BTree) (x : Nat)
    (hnd : (plug ((d, p, sib) :: ctx) (.node l x r)).inorder.Nodup) :
    sib.rootP ≠ some x := by
  intro hc
  have hx1 : x ∈ sib.inorder := rootP_mem_inorder sib x hc
  have hx2 : x ∈ (BTree.node l x r).inorder := by simp
  cases d
  · have hndT := nodup_sub_of_plug ctx (BTree.node (BTree.node l x r) p sib)
      (by simpa [plug] using hnd)
    rw [BTree.inorder_node, List.nodup_append] at hndT
    exact (hndT.2.2 hx2) (by simp [hx1])
  · have hndT := nodup_sub_of_plug ctx (BTree.node sib p (BTree.node l x r))
      (by simpa [plug] using hnd)
    rw [BTree.inorder_node, List.nodup_append] at hndT
    exact (hndT.2.2 hx1) (by simp [hx2])

/-- `avl_which_child` at the hole's root is the hole's direction. -/
theorem which_child_head (h : Heap) (ctx : List Frame) (d : Bool) (p : Nat)
    (sib l r : BTree) (x : Nat)
    (hrep : repB h none (plug ((d, p, sib) :: ctx) (.node l x r)) = true)
    (hnd : (plug ((d, p, sib) :: ctx) (.node l x r)).inorder.Nodup) :
    avl_which_child h x = if d then 1 else 0 := by
  have hsub := rep_plug_sub h ((d, p, sib) :: ctx) _ hrep
  rw [repB_node_iff] at hsub
  have hlink := rep_plug_link h ctx _ d p sib hrep
  rw [avl_which_child]
  rw [hsub.2.1]
  simp only [ctxPar]
  cases d
  · rw [if_pos (by rw [hlink.1]; rfl)]
    rfl
  · have hsib : (h.get p).child false = sib.rootP := by
      have h2 := hlink.2
      simpa using h2
    rw [if_neg (by rw [hsib]; exact sibling_root_ne h ctx true p sib l r x hnd)]
    rfl

theorem intIdx2bool_ite (d : Bool) : intIdx2bool (if d then 1 else 0) = d := by
  cases d <;> rfl

theorem rootP_plug_head (ctx : List Frame) (f : Frame) (t t' : BTree) :
    (plug (f :: ctx) t).rootP = (plug (f :: ctx) t').rootP := by
  obtain ⟨d, p, sib⟩ := f
  cases d <;> exact rootP_plug_congr ctx _ _ rfl

/-- The conditional reparenting `if (B) B->avl_parent = v;` of the rotation
code. -/
def wParentOpt (h : Heap) (b : Option Nat) (v : Option Nat) : Heap :=
  match b with
  | none => h
  | some x => h.wParent x v

/-- The `*slot = S` write of the rotation code, with the slot determined by
the context (the root handle write touches no heap cell). -/
def slotHeap (h : Heap) (ctx : List Frame) (v : Option Nat) : Heap :=
  match ctx with
  | [] => h
  | (d, p, _) :: _ => h.wChild p d v

theorem lk_slotHeap (h : Heap) (ctx : List Frame) (v : Option Nat) (q : Nat) :
    (slotHeap h ctx v).lk q = slotWrite h ctx v q := by
  cases ctx with
  | nil => rfl
  | cons f ctx =>
    obtain ⟨d, p, sib⟩ := f
    simp only [slotHeap, slotWrite, lk_wChild]

theorem get_slotHeap_ne (h : Heap) (ctx : List Frame) (v : Option Nat) (q : Nat)
    (hq : ∀ d p sib ctx2, ctx = (d, p, sib) :: ctx2 → q ≠ p) :
    (slotHeap h ctx v).get q = h.get q := by
  cases ctx with
  | nil => rfl
  | cons f ctx =>
    obtain ⟨d, p, sib⟩ := f
    rw [slotHeap, get_wChild, if_neg (hq d p sib ctx rfl)]

theorem lk_wParentOpt (h : Heap) (b v : Option Nat) (q : Nat) :
    (wParentOpt h b v).lk q =
      if b = some q then some ((h.get q).setParent v) else h.lk q := by
  cases b with
  | none => simp [wParentOpt]
  | some x =>
    simp only [wParentOpt, lk_wParent]
    by_cases hqx : q = x
    · subst hqx; simp
    · rw [if_neg hqx, if_neg (by simp [hqx]; exact fun he => hqx he.symm)]

theorem get_wParentOpt (h : Heap) (b v : Option Nat) (q : Nat) :
    (wParentOpt h b v).get q =
      if b = some q then (h.get q).setParent v else h.get q := by
  unfold Heap.get
  rw [lk_wParentOpt]
  split <;> rfl

theorem balance_wParentOpt (h : Heap) (b v : Option Nat) (q : Nat) :
    ((wParentOpt h b v).get q).avl_balance = (h.get q).avl_balance := by
  rw [get_wParentOpt]
  split <;> simp

theorem slotWrite_ne_head (h : Heap) (ctx : List Frame) (v : Option Nat) (q : Nat)
    (hq : ∀ d p sib ctx2, ctx = (d, p, sib) :: ctx2 → q ≠ p) :
    slotWrite h ctx v q = h.lk q := by
  cases ctx with
  | nil => rfl
  | cons f ctx =>
    obtain ⟨d, p, sib⟩ := f
    simp only [slotWrite]
    rw [if_neg (hq d p sib ctx rfl)]

theorem balance_slotWrite (h : Heap) (ctx : List Frame) (v : Option Nat) (q : Nat)
    (hs : (h.lk q).isSome = true) :
    ((slotWrite h ctx v q).getD emptyNode).avl_balance = (h.get q).avl_balance := by
  cases ctx with
  | nil => rfl
  | cons f ctx =>
    obtain ⟨d, p, sib⟩ := f
    simp only [slotWrite]
    split
    · rename_i hqp
      subst hqp
      simp [Heap.get]
    · rfl

/-- The head node of a nonempty context is not in the hole's subtree. -/
theorem head_not_mem_sub (ctx : List Frame) (d : Bool) (p : Nat) (sib s : BTree)
    (hnd : (plug ((d, p, sib) :: ctx) s).inorder.Nodup) : p ∉ s.inorder := by
  cases d
  · have hndT := nodup_sub_of_plug ctx (BTree.node s p sib) (by simpa [plug] using hnd)
    exact (nodup_node_facts _ _ _ hndT).1
  · have hndT := nodup_sub_of_plug ctx (BTree.node sib p s) (by simpa [plug] using hnd)
    exact (nodup_node_facts _ _ _ hndT).2.1

/-! ## Frame analysis of `avl_remove` (claim C10) -/

/-- Selector for the three pointer fields of a heap cell. -/
inductive FieldId where
  | chL | chR | par
  deriving Repr, DecidableEq

def AvlNode.fieldAt (n : AvlNode) : FieldId → Option Nat
  | .chL => n.childL
  | .chR => n.childR
  | .par => n.avl_parent

/-- A single store, as performed by the library code; `wpo` is the guarded
reparent `if (B) B->avl_parent = v;`. -/
inductive WOp where
  | wc (p : Nat) (i : Bool) (v : Option Nat)
  | wp (p : Nat) (v : Option Nat)
  | wb (p : Nat) (b : Int)
  | wpo (b : Option Nat) (v : Option Nat)
  deriving Repr, DecidableEq

/-- Whether a store writes (some field of) node `q`. -/
def WOp.touches : WOp → Nat → Prop
  | .wc p _ _, q => q = p
  | .wp p _, q => q = p
  | .wb p _, q => q = p
  | .wpo b _, q => b = some q

/-- The pointer value a store writes (`none` for balance stores). -/
def WOp.ptrVal : WOp → Option Nat
  | .wc _ _ v => v
  | .wp _ v => v
  | .wb _ _ => none
  | .wpo _ v => v

/-- Whether a store writes field `f` of node `q`. -/
def WOp.hits : WOp → Nat → FieldId → Prop
  | .wc p i _, q, f => q = p ∧ f = (if i then .chR else .chL)
  | .wp p _, q, f => q = p ∧ f = .par
  | .wb _ _, _, _ => False
  | .wpo b _, q, f => b = some q ∧ f = .par

def applyW (h : Heap) : WOp → Heap
  | .wc p i v => h.wChild p i v
  | .wp p v => h.wParent p v
  | .wb p b => h.wBalance p b
  | .wpo b v => wParentOpt h b v

def applyChain (h : Heap) : List WOp → Heap
  | [] => h
  | op :: L => applyChain (applyW h op) L

theorem lk_applyW_ne (h : Heap) (op : WOp) (q : Nat) (hq : ¬ op.touches q) :
    (applyW h op).lk q = h.lk q := by
  cases op with
  | wc p i v =>
    simp only [WOp.touches] at hq
    simp [applyW, Heap.wChild, lk_set, hq]
  | wp p v =>
    simp only [WOp.touches] at hq
    simp [applyW, Heap.wParent, lk_set, hq]
  | wb p b =>
    simp only [WOp.touches] at hq
    simp [applyW, Heap.wBalance, lk_set, hq]
  | wpo b v =>
    simp only [WOp.touches] at hq
    cases b with
    | none => rfl
    | some z =>
      have hz : q ≠ z := fun he => hq (by rw [he])
      simp [applyW, wParentOpt, Heap.wParent, lk_set, hz]

theorem lk_applyChain_ne (h : Heap) (L : List WOp) (q : Nat)
    (hq : ∀ op ∈ L, ¬ op.touches q) :
    (applyChain h L).lk q = h.lk q := by
  induction L generalizing h with
  | nil => rfl
  | cons op L ih =>
    rw [applyChain, ih _ (fun o ho => hq o (List.mem_cons_of_mem _ ho)),
      lk_applyW_ne h op q (hq op (List.mem_cons_self _ _))]

theorem fieldAt_applyW_not_hit (h : Heap) (op : WOp) (q : Nat) (f : FieldId)
    (hnh : ¬ op.hits q f) :
    ((applyW h op).get q).fieldAt f = (h.get q).fieldAt f := by
  cases op with
  | wc p i v =>
    simp only [applyW]
    rw [get_wChild]
    by_cases hqp : q = p
    · subst hqp
      rw [if_pos rfl]
      have hf : f ≠ (if i then FieldId.chR else FieldId.chL) := fun he => hnh ⟨rfl, he⟩
      cases i <;> cases f <;> simp_all [AvlNode.fieldAt]
    · rw [if_neg hqp]
  | wp p v =>
    simp only [applyW]
    rw [get_wParent]
    by_cases hqp : q = p
    · subst hqp
      rw [if_pos rfl]
      have hf : f ≠ FieldId.par := fun he => hnh ⟨rfl, he⟩
      cases f <;> simp_all [AvlNode.fieldAt, AvlNode.setParent]
    · rw [if_neg hqp]
  | wb p b =>
    simp only [applyW]
    rw [get_wBalance]
    by_cases hqp : q = p
    · subst hqp
      rw [if_pos rfl]
      cases f <;> simp [AvlNode.fieldAt, AvlNode.setBalance]
    · rw [if_neg hqp]
  | wpo b v =>
    cases b with
    | none => rfl
    | some z =>
      simp only [applyW, wParentOpt]
      rw [get_wParent]
      by_cases hqz : q = z
      · subst hqz
        rw [if_pos rfl]
        have hf : f ≠ FieldId.par := fun he => hnh ⟨rfl, he⟩
        cases f <;> simp_all [AvlNode.fieldAt, AvlNode.setParent]
      · rw [if_neg hqz]

/-- A store chain none of whose pointer stores carries the value `some x`
cannot create a reference to `x`: any reference to `x` in the final heap was
already present initially, in a field slot the chain never wrote. -/
theorem chain_refs (x : Nat) : ∀ (L : List WOp) (h : Heap),
    (∀ op ∈ L, op.ptrVal ≠ some x) →
    ∀ (q : Nat) (f : FieldId), ((applyChain h L).get q).fieldAt f = some x →
    (h.get q).fieldAt f = some x ∧ ∀ op ∈ L, ¬ op.hits q f := by
  intro L
  induction L with
  | nil =>
    intro h _ q f hf
    exact ⟨hf, by simp⟩
  | cons op L ih =>
    intro h hv q f hf
    rw [applyChain] at hf
    obtain ⟨h1, h2⟩ := ih (applyW h op) (fun o ho => hv o (List.mem_cons_of_mem _ ho)) q f hf
    by_cases hh : op.hits q f
    · exfalso
      have hwrote : ((applyW h op).get q).fieldAt f = op.ptrVal := by
        cases op with
        | wc p i v =>
          simp only [WOp.hits] at hh
          obtain ⟨rfl, rfl⟩ := hh
          simp only [applyW, WOp.ptrVal]
          rw [get_wChild, if_pos rfl]
          cases i <;> simp [AvlNode.fieldAt]
        | wp p v =>
          simp only [WOp.hits] at hh
          obtain ⟨rfl, rfl⟩ := hh
          simp only [applyW, WOp.ptrVal]
          rw [get_wParent, if_pos rfl]
          simp [AvlNode.fieldAt]
        | wb p b => exact absurd hh (by simp [WOp.hits])
        | wpo b v =>
          simp only [WOp.hits] at hh
          obtain ⟨hb, rfl⟩ := hh
          subst hb
          simp only [applyW, wParentOpt, WOp.ptrVal]
          rw [get_wParent, if_pos rfl]
          simp [AvlNode.fieldAt]
      rw [hwrote] at h1
      exact hv op (List.mem_cons_self _ _) h1
    · refine ⟨?_, ?_⟩
      · rw [← fieldAt_applyW_not_hit h op q f hh]
        exact h1
      · intro o ho
        rcases List.mem_cons.1 ho with rfl | ho2
        · exact hh
        · exact h2 o ho2

theorem plug_append : ∀ (c1 c2 : List Frame) (s : BTree),
    plug (c1 ++ c2) s = plug c2 (plug c1 s) := by
  intro c1
  induction c1 with
  | nil => intro c2 s; rfl
  | cons f c1 ih =>
    intro c2 s
    obtain ⟨d, p, sib⟩ := f
    cases d <;> simp [plug, ih]

/-- Climbing out of a proper subtree never reaches the subtree's root. -/
theorem rootP_plug_ne : ∀ (ctx : List Frame) (s : BTree) (x : Nat),
    x ∈ s.inorder → (plug ctx s).inorder.Nodup → s.rootP ≠ some x →
    (plug ctx s).rootP ≠ some x := by
  intro ctx
  induction ctx with
  | nil => intro s x _ _ hne; exact hne
  | cons f ctx ih =>
    intro s x hx hnd hne
    obtain ⟨d, p, sib⟩ := f
    have hpx : p ≠ x := by
      intro he
      subst he
      exact head_not_mem_sub ctx d p sib s hnd hx
    cases d
    · simp only [plug] at hnd ⊢
      refine ih _ x (by simp [hx]) hnd ?_
      simp only [BTree.rootP_node, ne_eq, Option.some.injEq]
      exact hpx
    · simp only [plug] at hnd ⊢
      refine ih _ x (by simp [hx]) hnd ?_
      simp only [BTree.rootP_node, ne_eq, Option.some.injEq]
      exact hpx

/-- In a duplicate-free tree the zipper decomposition at an element is
unique. -/
theorem plug_decomp_unique (x : Nat) : ∀ (t : BTree), t.inorder.Nodup →
    ∀ (ctx1 : List Frame) (l1 r1 : BTree) (ctx2 : List Frame) (l2 r2 : BTree),
    plug ctx1 (.node l1 x r1) = t → plug ctx2 (.node l2 x r2) = t →
    ctx1 = ctx2 ∧ l1 = l2 ∧ r1 = r2 := by
  intro t
  induction t with
  | nil =>
    intro _ ctx1 l1 r1 ctx2 l2 r2 h1 _
    exfalso
    have hx : x ∈ (plug ctx1 (.node l1 x r1)).inorder :=
      mem_plug_of_mem _ _ _ (by simp)
    rw [h1] at hx
    simp at hx
  | node L y R ihl ihr =>
    intro hnd ctx1 l1 r1 ctx2 l2 r2 h1 h2
    obtain ⟨hyL, hyR, hndL, hndR, hdis⟩ := nodup_node_facts L y R hnd
    rcases List.eq_nil_or_concat ctx1 with rfl | ⟨c1, f1, rfl⟩
    · rcases List.eq_nil_or_concat ctx2 with rfl | ⟨c2, f2, rfl⟩
      · simp only [plug] at h1 h2
        rw [← h2] at h1
        simp only [BTree.node.injEq] at h1
        exact ⟨rfl, h1.1, h1.2.2⟩
      · exfalso
        simp only [plug] at h1
        simp only [BTree.node.injEq] at h1
        obtain ⟨d2, p2, sib2⟩ := f2
        rw [List.concat_eq_append, plug_append] at h2
        cases d2 <;> simp only [plug, BTree.node.injEq] at h2
        · apply hyL
          rw [← h1.2.1, ← h2.1]
          exact mem_plug_of_mem _ _ _ (by simp)
        · apply hyR
          rw [← h1.2.1, ← h2.2.2]
          exact mem_plug_of_mem _ _ _ (by simp)
    · rcases List.eq_nil_or_concat ctx2 with rfl | ⟨c2, f2, rfl⟩
      · exfalso
        simp only [plug] at h2
        simp only [BTree.node.injEq] at h2
        obtain ⟨d1, p1, sib1⟩ := f1
        rw [List.concat_eq_append, plug_append] at h1
        cases d1 <;> simp only [plug, BTree.node.injEq] at h1
        · apply hyL
          rw [← h2.2.1, ← h1.1]
          exact mem_plug_of_mem _ _ _ (by simp)
        · apply hyR
          rw [← h2.2.1, ← h1.2.2]
          exact mem_plug_of_mem _ _ _ (by simp)
      · obtain ⟨d1, p1, sib1⟩ := f1
        obtain ⟨d2, p2, sib2⟩ := f2
        rw [List.concat_eq_append] at h1 h2 ⊢
        rw [plug_append] at h1 h2
        cases d1 <;> cases d2 <;> simp only [plug, BTree.node.injEq] at h1 h2
        · obtain ⟨hc, hp1, hs1⟩ := h1
          obtain ⟨hc2, hp2, hs2⟩ := h2
          obtain ⟨hctx, hl, hr⟩ := ihl hndL c1 l1 r1 c2 l2 r2 hc hc2
          subst hp1
          subst hp2
          subst hs1
          subst hs2
          exact ⟨by simp [hctx, List.concat_eq_append], hl, hr⟩
        · exfalso
          obtain ⟨hc, hp1, hs1⟩ := h1
          obtain ⟨hc2, hp2, hs2⟩ := h2
          have hx1 : x ∈ L.inorder := by
            rw [← hc]
            exact mem_plug_of_mem _ _ _ (by simp)
          have hx2 : x ∈ R.inorder := by
            rw [← hs2]
            exact mem_plug_of_mem _ _ _ (by simp)
          exact (hdis x hx1) hx2
        · exfalso
          obtain ⟨hc, hp1, hs1⟩ := h1
          obtain ⟨hc2, hp2, hs2⟩ := h2
          have hx1 : x ∈ L.inorder := by
            rw [← hc2]
            exact mem_plug_of_mem _ _ _ (by simp)
          have hx2 : x ∈ R.inorder := by
            rw [← hs1]
            exact mem_plug_of_mem _ _ _ (by simp)
          exact (hdis x hx1) hx2
        · obtain ⟨hs1, hp1, hc⟩ := h1
          obtain ⟨hs2, hp2, hc2⟩ := h2
          obtain ⟨hctx, hl, hr⟩ := ihr hndR c1 l1 r1 c2 l2 r2 hc hc2
          subst hp1
          subst hp2
          subst hs1
          subst hs2
          exact ⟨by simp [hctx, List.concat_eq_append], hl, hr⟩

/-- In a represented duplicate-free tree, the only nodes whose fields
reference the hole's root `x` are the hole's context head (through the
hole-side child slot) and the roots of `x`'s own subtrees (through their
parent fields). -/
theorem ref_to_removed (h : Heap) (ctx : List Frame) (l r : BTree) (x : Nat)
    (hrep : repB h none (plug ctx (.node l x r)) = true)
    (hnd : (plug ctx (.node l x r)).inorder.Nodup)
    (q : Nat) (hq : q ∈ (plug ctx (.node l x r)).inorder) (hqx : q ≠ x) :
    ((h.get q).childL = some x → ∃ sib ctx2, ctx = (false, q, sib) :: ctx2) ∧
    ((h.get q).childR = some x → ∃ sib ctx2, ctx = (true, q, sib) :: ctx2) ∧
    ((h.get q).avl_parent = some x → l.rootP = some q ∨ r.rootP = some q) := by
  obtain ⟨ctxq, lq, rq, hctxq⟩ := mem_inorder_decomp _ q hq
  have hsubq : repB h (ctxPar ctxq) (.node lq q rq) = true :=
    rep_plug_sub h ctxq (.node lq q rq) (by rw [hctxq]; exact hrep)
  rw [repB_node_iff] at hsubq
  refine ⟨?_, ?_, ?_⟩
  · intro hcl
    rw [hsubq.2.2.1] at hcl
    cases lq with
    | nil => simp at hcl
    | node la xx lb =>
      simp only [BTree.rootP_node, Option.some.injEq] at hcl
      subst hcl
      have hdec2 : plug ((false, q, rq) :: ctxq) (.node la xx lb) =
          plug ctx (.node l xx r) := by
        simp only [plug]
        exact hctxq
      have := plug_decomp_unique xx _ hnd _ _ _ _ _ _ hdec2 rfl
      exact ⟨rq, ctxq, this.1.symm⟩
  · intro hcr
    rw [hsubq.2.2.2.1] at hcr
    cases rq with
    | nil => simp at hcr
    | node ra xx rb =>
      simp only [BTree.rootP_node, Option.some.injEq] at hcr
      subst hcr
      have hdec2 : plug ((true, q, lq) :: ctxq) (.node ra xx rb) =
          plug ctx (.node l xx r) := by
        simp only [plug]
        exact hctxq
      have := plug_decomp_unique xx _ hnd _ _ _ _ _ _ hdec2 rfl
      exact ⟨lq, ctxq, this.1.symm⟩
  · intro hp
    rw [hsubq.2.1] at hp
    cases ctxq with
    | nil => simp [ctxPar] at hp
    | cons f ctxq2 =>
      obtain ⟨dq, pq, sibq⟩ := f
      simp only [ctxPar, Option.some.injEq] at hp
      subst hp
      cases dq
      · have hdec2 : plug ctxq2 (.node (.node lq q rq) pq sibq) =
            plug ctx (.node l pq r) := by
          rw [← hctxq]
          rfl
        have := plug_decomp_unique pq _ hnd ctxq2 (.node lq q rq) sibq ctx l r hdec2 rfl
        exact Or.inl (by rw [← this.2.1]; rfl)
      · have hdec2 : plug ctxq2 (.node sibq pq (.node lq q rq)) =
            plug ctx (.node l pq r) := by
          rw [← hctxq]
          rfl
        have := plug_decomp_unique pq _ hnd ctxq2 sibq (.node lq q rq) ctx l r hdec2 rfl
        exact Or.inr (by rw [← this.2.2]; rfl)

/-- A non-root member of the hole subtree has its parent field and its child
fields pointing into the subtree. -/
theorem node_fields_in (h : Heap) (ctx : List Frame) (s : BTree)
    (hrep : repB h none (plug ctx s) = true)
    (c : Nat) (hcs : c ∈ s.inorder) (hne : s.rootP ≠ some c) :
    (∃ pc, (h.get c).avl_parent = some pc ∧ pc ∈ s.inorder) ∧
    (∀ (d : Bool) (w : Nat), (h.get c).child d = some w → w ∈ s.inorder) := by
  obtain ⟨ctxs, lc, rc, hctxs⟩ := mem_inorder_decomp s c hcs
  cases ctxs with
  | nil =>
    exfalso
    apply hne
    rw [← hctxs]
    rfl
  | cons f ctxs2 =>
    obtain ⟨d1, q1, sib1⟩ := f
    have hall : plug (((d1, q1, sib1) :: ctxs2) ++ ctx) (.node lc c rc) = plug ctx s := by
      rw [plug_append, hctxs]
    have hsubc : repB h (ctxPar (((d1, q1, sib1) :: ctxs2) ++ ctx)) (.node lc c rc) = true :=
      rep_plug_sub h _ _ (by rw [hall]; exact hrep)
    rw [repB_node_iff] at hsubc
    have hq1mem : q1 ∈ s.inorder := by
      rw [← hctxs]
      cases d1 <;>
      · simp only [plug]
        exact mem_plug_of_mem ctxs2 _ q1 (by simp)
    refine ⟨⟨q1, by rw [hsubc.2.1]; rfl, hq1mem⟩, ?_⟩
    intro d w hw
    rw [← hctxs]
    cases d
    · have hw2 : lc.rootP = some w := by
        rw [← hsubc.2.2.1]
        exact hw
      exact mem_plug_of_mem _ _ w (by simp [rootP_mem_inorder lc w hw2])
    · have hw2 : rc.rootP = some w := by
        rw [← hsubc.2.2.2.1]
        exact hw
      exact mem_plug_of_mem _ _ w (by simp [rootP_mem_inorder rc w hw2])

@[simp] theorem setBalance_childL (n : AvlNode) (b : Int) :
    (n.setBalance b).childL = n.childL := rfl

@[simp] theorem setBalance_childR (n : AvlNode) (b : Int) :
    (n.setBalance b).childR = n.childR := rfl

@[simp] theorem setParent_childL (n : AvlNode) (v : Option Nat) :
    (n.setParent v).childL = n.childL := rfl

@[simp] theorem setParent_childR (n : AvlNode) (v : Option Nat) :
    (n.setParent v).childR = n.childR := rfl

/-- No node other than `x` itself holds any reference to `x`. -/
def noRefX (h : Heap) (x : Nat) : Prop :=
  ∀ q, q ≠ x → (h.get q).childL ≠ some x ∧ (h.get q).childR ≠ some x ∧
    (h.get q).avl_parent ≠ some x

theorem noRefX_child {h : Heap} {x : Nat} (hn : noRefX h x) (q : Nat)
    (hq : q ≠ x) (d : Bool) : (h.get q).child d ≠ some x := by
  cases d
  · exact (hn q hq).1
  · exact (hn q hq).2.1

theorem noRefX_parent {h : Heap} {x : Nat} (hn : noRefX h x) (q : Nat)
    (hq : q ≠ x) : (h.get q).avl_parent ≠ some x :=
  (hn q hq).2.2

theorem noRefX_wChild (h : Heap) (x p : Nat) (i : Bool) (v : Option Nat)
    (hn : noRefX h x) (hv : v ≠ some x) : noRefX (h.wChild p i v) x := by
  intro q hq
  rw [get_wChild]
  by_cases hqp : q = p
  · rw [if_pos hqp]
    obtain ⟨h1, h2, h3⟩ := hn p (hqp ▸ hq)
    cases i
    · exact ⟨by simpa using hv, by simpa using h2, by simpa using h3⟩
    · exact ⟨by simpa using h1, by simpa using hv, by simpa using h3⟩
  · rw [if_neg hqp]
    exact hn q hq

theorem noRefX_wParent (h : Heap) (x p : Nat) (v : Option Nat)
    (hn : noRefX h x) (hv : v ≠ some x) : noRefX (h.wParent p v) x := by
  intro q hq
  rw [get_wParent]
  by_cases hqp : q = p
  · rw [if_pos hqp]
    obtain ⟨h1, h2, h3⟩ := hn p (hqp ▸ hq)
    exact ⟨by simpa using h1, by simpa using h2, by simpa using hv⟩
  · rw [if_neg hqp]
    exact hn q hq

theorem noRefX_wBalance (h : Heap) (x p : Nat) (b : Int)
    (hn : noRefX h x) : noRefX (h.wBalance p b) x := by
  intro q hq
  rw [get_wBalance]
  by_cases hqp : q = p
  · rw [if_pos hqp]
    obtain ⟨h1, h2, h3⟩ := hn p (hqp ▸ hq)
    exact ⟨by simpa using h1, by simpa using h2, by simpa using h3⟩
  · rw [if_neg hqp]
    exact hn q hq

theorem lkx_wChild (h : Heap) (x p : Nat) (i : Bool) (v : Option Nat) (hp : p ≠ x) :
    (h.wChild p i v).lk x = h.lk x := by
  rw [lk_wChild, if_neg (fun he => hp he.symm)]

theorem lkx_wParent (h : Heap) (x p : Nat) (v : Option Nat) (hp : p ≠ x) :
    (h.wParent p v).lk x = h.lk x := by
  rw [lk_wParent, if_neg (fun he => hp he.symm)]

theorem lkx_wBalance (h : Heap) (x p : Nat) (b : Int) (hp : p ≠ x) :
    (h.wBalance p b).lk x = h.lk x := by
  rw [lk_wBalance, if_neg (fun he => hp he.symm)]

theorem stepC (x : Nat) {h0 h : Heap} (H : h.lk x = h0.lk x ∧ noRefX h x)
    (p : Nat) (i : Bool) (v : Option Nat) (hp : p ≠ x) (hv : v ≠ some x) :
    (h.wChild p i v).lk x = h0.lk x ∧ noRefX (h.wChild p i v) x :=
  ⟨by rw [lkx_wChild h x p i v hp, H.1], noRefX_wChild h x p i v H.2 hv⟩

theorem stepP (x : Nat) {h0 h : Heap} (H : h.lk x = h0.lk x ∧ noRefX h x)
    (p : Nat) (v : Option Nat) (hp : p ≠ x) (hv : v ≠ some x) :
    (h.wParent p v).lk x = h0.lk x ∧ noRefX (h.wParent p v) x :=
  ⟨by rw [lkx_wParent h x p v hp, H.1], noRefX_wParent h x p v H.2 hv⟩

theorem stepB (x : Nat) {h0 h : Heap} (H : h.lk x = h0.lk x ∧ noRefX h x)
    (p : Nat) {b : Int} (hp : p ≠ x) :
    (h.wBalance p b).lk x = h0.lk x ∧ noRefX (h.wBalance p b) x :=
  ⟨by rw [lkx_wBalance h x p b hp, H.1], noRefX_wBalance h x p b H.2⟩

/-- Conditional-reparent step for the frame argument. -/
theorem stepPOpt (x : Nat) {h0 h : Heap} (H : h.lk x = h0.lk x ∧ noRefX h x)
    (b : Option Nat) (v : Option Nat) (hb : b ≠ some x) (hv : v ≠ some x) :
    (wParentOpt h b v).lk x = h0.lk x ∧ noRefX (wParentOpt h b v) x := by
  cases b with
  | none => exact H
  | some z => exact stepP x H z v (fun he => hb (by rw [he])) hv

theorem frame_pack {h0 : Heap} {x : Nat} {e : Heap × Option Nat × Int}
    (T : e.1.lk x = h0.lk x ∧ noRefX e.1 x) (hr : e.2.1 ≠ some x) :
    e.1.lk x = h0.lk x ∧ noRefX e.1 x ∧ e.2.1 ≠ some x :=
  ⟨T.1, T.2, hr⟩

/-- `avl_rebalance` called away from `x` in a heap with no references to `x`
leaves `x`'s cell untouched, creates no reference to `x`, and cannot make the
root handle point at `x`. -/
theorem avl_rebalance_frame_x (h : Heap) (root : Option Nat) (node x : Nat)
    (hn : noRefX h x) (hnode : node ≠ x) (hroot : root ≠ some x) :
    (avl_rebalance h root node).1.lk x = h.lk x ∧
    noRefX (avl_rebalance h root node).1 x ∧
    (avl_rebalance h root node).2.1 ≠ some x := by
  rcases hch : (h.get node).child (avl_balance2idx (h.get node).avl_balance) with _ | S
  · have hmain : avl_rebalance h root node = (h, root, 0) := by
      simp only [avl_rebalance, hch]
    rw [hmain]
    exact ⟨rfl, hn, hroot⟩
  · have hS : S ≠ x := by
      intro he
      exact noRefX_child hn node hnode _ (he ▸ hch)
    have hSv : some S ≠ some x := fun he => hS (by injection he)
    have hRv : some node ≠ some x := fun he => hnode (by injection he)
    have hBne : (h.get S).child (!avl_balance2idx (h.get node).avl_balance) ≠ some x :=
      noRefX_child hn S hS _
    have hstart : h.lk x = h.lk x ∧ noRefX h x := ⟨rfl, hn⟩
    simp only [avl_rebalance, hch]
    split_ifs with hb1 hb2
    · -- Case 1: single rotation
      rcases hrp : (h.get node).avl_parent with _ | rp
      · refine frame_pack ?_ hSv
        exact stepB x (stepB x (stepPOpt x (stepC x (stepC x (stepP x (stepP x hstart
          S none hS (by simp)) node (some S) hnode hSv)
          S (!avl_balance2idx (h.get node).avl_balance) (some node) hS hRv)
          node (avl_balance2idx (h.get node).avl_balance)
            ((h.get S).child (!avl_balance2idx (h.get node).avl_balance)) hnode hBne)
          ((h.get S).child (!avl_balance2idx (h.get node).avl_balance)) (some node) hBne hRv)
          node hnode) S hS
      · have hrpx : rp ≠ x := by
          intro he
          exact noRefX_parent hn node hnode (he ▸ hrp)
        have hrpv : some rp ≠ some x := fun he => hrpx (by injection he)
        refine frame_pack ?_ hroot
        exact stepB x (stepB x (stepPOpt x (stepC x (stepC x (stepP x (stepP x (stepC x
          hstart rp (intIdx2bool (avl_which_child h node)) (some S) hrpx hSv)
          S (some rp) hS hrpv) node (some S) hnode hSv)
          S (!avl_balance2idx (h.get node).avl_balance) (some node) hS hRv)
          node (avl_balance2idx (h.get node).avl_balance)
            ((h.get S).child (!avl_balance2idx (h.get node).avl_balance)) hnode hBne)
          ((h.get S).child (!avl_balance2idx (h.get node).avl_balance)) (some node) hBne hRv)
          node hnode) S hS
    · -- Case 2: double rotation
      rcases hQ : (h.get S).child (!avl_balance2idx (h.get node).avl_balance) with _ | Q
      · exact ⟨rfl, hn, hroot⟩
      · have hQx : Q ≠ x := by
          intro he
          exact noRefX_child hn S hS _ (he ▸ hQ)
        have hQv : some Q ≠ some x := fun he => hQx (by injection he)
        have hB2 : (h.get Q).child (!avl_balance2idx (h.get node).avl_balance) ≠ some x :=
          noRefX_child hn Q hQx _
        have hC2 : (h.get Q).child (avl_balance2idx (h.get node).avl_balance) ≠ some x :=
          noRefX_child hn Q hQx _
        rcases hrp : (h.get node).avl_parent with _ | rp
        · have s10 := stepP x (stepC x (stepP x (stepC x (stepPOpt x (stepC x (stepPOpt x
            (stepC x (stepP x hstart
            Q none hQx (by simp))
            node (avl_balance2idx (h.get node).avl_balance)
              ((h.get Q).child (!avl_balance2idx (h.get node).avl_balance)) hnode hB2)
            ((h.get Q).child (!avl_balance2idx (h.get node).avl_balance)) (some node) hB2 hRv)
            S (!avl_balance2idx (h.get node).avl_balance)
              ((h.get Q).child (avl_balance2idx (h.get node).avl_balance)) hS hC2)
            ((h.get Q).child (avl_balance2idx (h.get node).avl_balance)) (some S) hC2 hSv)
            Q (!avl_balance2idx (h.get node).avl_balance) (some node) hQx hRv)
            node (some Q) hnode hQv)
            Q (avl_balance2idx (h.get node).avl_balance) (some S) hQx hSv)
            S (some Q) hS hQv
          dsimp only
          split_ifs with c1 c2
          · exact ⟨(stepB x (stepB x (stepB x s10 S hS) node hnode) Q hQx).1,
              (stepB x (stepB x (stepB x s10 S hS) node hnode) Q hQx).2, hQv⟩
          · exact ⟨(stepB x (stepB x (stepB x s10 node hnode) S hS) Q hQx).1,
              (stepB x (stepB x (stepB x s10 node hnode) S hS) Q hQx).2, hQv⟩
          · exact ⟨(stepB x (stepB x (stepB x s10 S hS) node hnode) Q hQx).1,
              (stepB x (stepB x (stepB x s10 S hS) node hnode) Q hQx).2, hQv⟩
        · have hrpx : rp ≠ x := by
            intro he
            exact noRefX_parent hn node hnode (he ▸ hrp)
          have hrpv : some rp ≠ some x := fun he => hrpx (by injection he)
          have s10 := stepP x (stepC x (stepP x (stepC x (stepPOpt x (stepC x (stepPOpt x
            (stepC x (stepP x (stepC x hstart
            rp (intIdx2bool (avl_which_child h node)) (some Q) hrpx hQv)
            Q (some rp) hQx hrpv)
            node (avl_balance2idx (h.get node).avl_balance)
              ((h.get Q).child (!avl_balance2idx (h.get node).avl_balance)) hnode hB2)
            ((h.get Q).child (!avl_balance2idx (h.get node).avl_balance)) (some node) hB2 hRv)
            S (!avl_balance2idx (h.get node).avl_balance)
              ((h.get Q).child (avl_balance2idx (h.get node).avl_balance)) hS hC2)
            ((h.get Q).child (avl_balance2idx (h.get node).avl_balance)) (some S) hC2 hSv)
            Q (!avl_balance2idx (h.get node).avl_balance) (some node) hQx hRv)
            node (some Q) hnode hQv)
            Q (avl_balance2idx (h.get node).avl_balance) (some S) hQx hSv)
            S (some Q) hS hQv
          dsimp only
          split_ifs with c1 c2
          · exact ⟨(stepB x (stepB x (stepB x s10 S hS) node hnode) Q hQx).1,
              (stepB x (stepB x (stepB x s10 S hS) node hnode) Q hQx).2, hroot⟩
          · exact ⟨(stepB x (stepB x (stepB x s10 node hnode) S hS) Q hQx).1,
              (stepB x (stepB x (stepB x s10 node hnode) S hS) Q hQx).2, hroot⟩
          · exact ⟨(stepB x (stepB x (stepB x s10 S hS) node hnode) Q hQx).1,
              (stepB x (stepB x (stepB x s10 S hS) node hnode) Q hQx).2, hroot⟩
    · -- Case 3: single rotation, height unchanged
      rcases hrp : (h.get node).avl_parent with _ | rp
      · refine frame_pack ?_ hSv
        exact stepB x (stepPOpt x (stepC x (stepC x (stepP x (stepP x hstart
          S none hS (by simp)) node (some S) hnode hSv)
          S (!avl_balance2idx (h.get node).avl_balance) (some node) hS hRv)
          node (avl_balance2idx (h.get node).avl_balance)
            ((h.get S).child (!avl_balance2idx (h.get node).avl_balance)) hnode hBne)
          ((h.get S).child (!avl_balance2idx (h.get node).avl_balance)) (some node) hBne hRv)
          S hS
      · have hrpx : rp ≠ x := by
          intro he
          exact noRefX_parent hn node hnode (he ▸ hrp)
        have hrpv : some rp ≠ some x := fun he => hrpx (by injection he)
        refine frame_pack ?_ hroot
        exact stepB x (stepPOpt x (stepC x (stepC x (stepP x (stepP x (stepC x
          hstart rp (intIdx2bool (avl_which_child h node)) (some S) hrpx hSv)
          S (some rp) hS hrpv) node (some S) hnode hSv)
          S (!avl_balance2idx (h.get node).avl_balance) (some node) hS hRv)
          node (avl_balance2idx (h.get node).avl_balance)
            ((h.get S).child (!avl_balance2idx (h.get node).avl_balance)) hnode hBne)
          ((h.get S).child (!avl_balance2idx (h.get node).avl_balance)) (some node) hBne hRv)
          S hS

/-- The deletion retrace leaves `x`'s cell untouched when it starts away from
`x` in a heap holding no references to `x`, and ends with still no references
to `x` and a root handle other than `x`. -/
theorem removeRetrace_frame_x : ∀ (fuel : Nat) (h : Heap) (root : Option Nat)
    (wc : Int) (par : Option Nat) (x : Nat),
    noRefX h x → par ≠ some x → root ≠ some x →
    ∀ (h' : Heap) (root' : Option Nat) (cnt : Nat),
    removeRetrace fuel h root wc par = some (h', root', cnt) →
    h'.lk x = h.lk x ∧ noRefX h' x ∧ root' ≠ some x := by
  intro fuel
  induction fuel with
  | zero =>
    intro h root wc par x hn hpar hroot h' root' cnt heq
    cases par with
    | none =>
      simp [removeRetrace] at heq
      obtain ⟨rfl, rfl, rfl⟩ := heq
      exact ⟨rfl, hn, hroot⟩
    | some p => simp [removeRetrace] at heq
  | succ fuel ih =>
    intro h root wc par x hn hpar hroot h' root' cnt heq
    cases par with
    | none =>
      simp [removeRetrace] at heq
      obtain ⟨rfl, rfl, rfl⟩ := heq
      exact ⟨rfl, hn, hroot⟩
    | some p =>
      have hpx : p ≠ x := fun he => hpar (by rw [he])
      rw [removeRetrace] at heq
      simp only at heq
      split_ifs at heq with h1 h2 h3
      · have hparN : (h.get p).avl_parent ≠ some x := noRefX_parent hn p hpx
        have hstep := ih _ _ _ _ x (noRefX_wBalance h x p _ hn) hparN hroot _ _ _ heq
        refine ⟨?_, hstep.2⟩
        rw [hstep.1, lkx_wBalance h x p _ hpx]
      · simp at heq
        obtain ⟨rfl, rfl, -⟩ := heq
        exact ⟨lkx_wBalance h x p _ hpx, noRefX_wBalance h x p _ hn, hroot⟩
      · simp at heq
        obtain ⟨rfl, rfl, -⟩ := heq
        exact avl_rebalance_frame_x h root p x hn hpx hroot
      · rcases hr : removeRetrace fuel (avl_rebalance h root p).1
            (avl_rebalance h root p).2.1 (avl_which_child h p) ((h.get p).avl_parent)
            with _ | ⟨hh, rr, cc⟩
        · rw [hr] at heq
          simp at heq
        · rw [hr] at heq
          simp at heq
          obtain ⟨rfl, rfl, -⟩ := heq
          have frame := avl_rebalance_frame_x h root p x hn hpx hroot
          have hparN : (h.get p).avl_parent ≠ some x := noRefX_parent hn p hpx
          have hstep := ih _ _ _ _ x frame.2.1 hparN frame.2.2 _ _ _ hr
          exact ⟨by rw [hstep.1, frame.1], hstep.2⟩

/-- Coverage criterion: a store chain that carries no reference to `x` and
overwrites every slot that referenced `x` (the context head's hole-side child
slot and the parent fields of the hole root's children) leaves a heap with no
reference to `x` at all. -/
theorem splice_noRefX (h : Heap) (ctx : List Frame) (l r : BTree) (x : Nat)
    (hrep : repB h none (plug ctx (.node l x r)) = true)
    (hnd : (plug ctx (.node l x r)).inorder.Nodup)
    (hdom : ∀ q, (h.lk q).isSome = true → q ∈ (plug ctx (.node l x r)).inorder)
    (L : List WOp)
    (hvals : ∀ op ∈ L, op.ptrVal ≠ some x)
    (hcovL : ∀ q sib ctx2, ctx = (false, q, sib) :: ctx2 → ∃ op ∈ L, op.hits q .chL)
    (hcovR : ∀ q sib ctx2, ctx = (true, q, sib) :: ctx2 → ∃ op ∈ L, op.hits q .chR)
    (hcovP : ∀ q, l.rootP = some q ∨ r.rootP = some q → ∃ op ∈ L, op.hits q .par) :
    noRefX (applyChain h L) x := by
  intro q hq
  have main : ∀ f : FieldId, ((applyChain h L).get q).fieldAt f ≠ some x := by
    intro f habs
    obtain ⟨hold, hnohit⟩ := chain_refs x L h hvals q f habs
    have hlks : (h.lk q).isSome = true := by
      rcases hlkq : h.lk q with _ | n
      · exfalso
        have hget : h.get q = emptyNode := by rw [Heap.get, hlkq]; rfl
        rw [hget] at hold
        cases f <;> simp [AvlNode.fieldAt, emptyNode] at hold
      · rfl
    have hqmem := hdom q hlks
    have href := ref_to_removed h ctx l r x hrep hnd q hqmem hq
    cases f with
    | chL =>
      obtain ⟨sib, ctx2, hctxeq⟩ := href.1 hold
      obtain ⟨op, hop, hhits⟩ := hcovL q sib ctx2 hctxeq
      exact hnohit op hop hhits
    | chR =>
      obtain ⟨sib, ctx2, hctxeq⟩ := href.2.1 hold
      obtain ⟨op, hop, hhits⟩ := hcovR q sib ctx2 hctxeq
      exact hnohit op hop hhits
    | par =>
      obtain ⟨op, hop, hhits⟩ := hcovP q (href.2.2 hold)
      exact hnohit op hop hhits
  exact ⟨main .chL, main .chR, main .par⟩

/-- `removeSplice` with its guarded reparent stores written through
`wParentOpt`; definitionally the same function. -/
def removeSpliceW (h : Heap) (root : Option Nat) (node : Nat) (fuel : Nat)
    (child : Nat) : Option (Heap × Option Nat × Nat) :=
  let gchild := (h.get child).child (avl_balance2idx (h.get child).avl_balance)
  let which_child := avl_which_child h child
  let wcB := intIdx2bool which_child
  let step1 : Option (Heap × Nat) :=
    if (h.get child).avl_parent = some node then some (h, child)
    else
      match (h.get child).avl_parent with
      | none => none
      | some par =>
        let hA1 := h.wChild child wcB ((h.get node).child wcB)
        let hA2 := wParentOpt hA1 ((hA1.get child).child wcB) (some child)
        let hA3 := hA2.wChild par wcB gchild
        let hA4 := wParentOpt hA3 gchild (some par)
        some (hA4, par)
  match step1 with
  | none => none
  | some (hA, parent) =>
    let hB1 := hA.wChild child (!wcB) ((hA.get node).child (!wcB))
    let hB2 := wParentOpt hB1 ((hB1.get child).child (!wcB)) (some child)
    let hB3 := hB2.wBalance child ((hB2.get node).avl_balance)
    let hB4 := hB3.wParent child ((hB3.get node).avl_parent)
    let hrc : Heap × Option Nat :=
      match (hB4.get child).avl_parent with
      | none => (hB4, some child)
      | some np =>
        (hB4.wChild np (intIdx2bool (avl_which_child hB4 node)) (some child), root)
    removeRetrace fuel hrc.1 hrc.2 which_child (some parent)

theorem removeSplice_eq_W (h : Heap) (root : Option Nat) (node : Nat) (fuel : Nat)
    (child : Nat) :
    removeSplice h root node fuel child = removeSpliceW h root node fuel child := rfl

/-- The splice phase of `avl_remove` (including its retrace) never writes
`x`'s cell, clears every reference to `x`, and never installs `x` as root. -/
theorem removeSplice_frame_x (h : Heap) (root : Option Nat) (x fuel c : Nat)
    (ctx : List Frame) (l r : BTree)
    (hrep : repB h none (plug ctx (.node l x r)) = true)
    (hnd : (plug ctx (.node l x r)).inorder.Nodup)
    (hroot : root = (plug ctx (.node l x r)).rootP)
    (hdom : ∀ q, (h.lk q).isSome = true → q ∈ (plug ctx (.node l x r)).inorder)
    (hcmem : c ∈ (BTree.node l x r).inorder) (hcx : c ≠ x)
    (h' : Heap) (root' : Option Nat) (cnt : Nat)
    (heq : removeSplice h root x fuel c = some (h', root', cnt)) :
    h'.lk x = h.lk x ∧ noRefX h' x ∧ root' ≠ some x := by
  have hsub := rep_plug_sub h ctx _ hrep
  rw [repB_node_iff] at hsub
  have hndsub := nodup_sub_of_plug ctx _ hnd
  obtain ⟨hxl, hxr, hndl, hndr, hdislr⟩ := nodup_node_facts l x r hndsub
  have hlne : l.rootP ≠ some x := fun he => hxl (rootP_mem_inorder _ _ he)
  have hrne : r.rootP ≠ some x := fun he => hxr (rootP_mem_inorder _ _ he)
  have hcdL : (h.get x).childL = l.rootP := hsub.2.2.1
  have hcdR : (h.get x).childR = r.rootP := hsub.2.2.2.1
  have hxpar : (h.get x).avl_parent = ctxPar ctx := hsub.2.1
  have hxc : x ≠ c := fun he => hcx he.symm
  have hcT : c ∈ (plug ctx (.node l x r)).inorder := mem_plug_of_mem _ _ _ hcmem
  have hxchne : ∀ db : Bool, (h.get x).child db ≠ some x := by
    intro db
    cases db
    · show (h.get x).childL ≠ some x
      rw [hcdL]
      exact hlne
    · show (h.get x).childR ≠ some x
      rw [hcdR]
      exact hrne
  have hxchsub : ∀ (db : Bool) (w : Nat), (h.get x).child db = some w →
      w ∈ (BTree.node l x r).inorder := by
    intro db w hw
    cases db
    · have hl2 : l.rootP = some w := by rw [← hcdL]; exact hw
      simp [rootP_mem_inorder l w hl2]
    · have hr2 : r.rootP = some w := by rw [← hcdR]; exact hw
      simp [rootP_mem_inorder r w hr2]
  have hchne : ∀ q, q ∈ (BTree.node l x r).inorder → q ≠ x →
      ∀ db : Bool, (h.get q).child db ≠ some x := by
    intro q hqmem hqx db habs
    have href := ref_to_removed h ctx l r x hrep hnd q (mem_plug_of_mem _ _ _ hqmem) hqx
    cases db
    · obtain ⟨sib, ctx2, hctxeq⟩ := href.1 habs
      exact head_not_mem_sub ctx2 false q sib _ (by rw [← hctxeq]; exact hnd) hqmem
    · obtain ⟨sib, ctx2, hctxeq⟩ := href.2.1 habs
      exact head_not_mem_sub ctx2 true q sib _ (by rw [← hctxeq]; exact hnd) hqmem
  have hfld := node_fields_in h ctx (.node l x r) hrep c hcmem
    (by rw [BTree.rootP_node]; intro he; injection he with h2; exact hxc h2)
  obtain ⟨⟨pc0, hpc0, hpc0mem⟩, hcchsub⟩ := hfld
  have hccne : ∀ db : Bool, (h.get c).child db ≠ some x := hchne c hcmem hcx
  have hrefc := ref_to_removed h ctx l r x hrep hnd c hcT hcx
  revert heq
  rw [removeSplice_eq_W, removeSpliceW]
  dsimp only
  generalize hwci : avl_which_child h c = wci
  generalize hwb : intIdx2bool wci = wb
  by_cases hdir : (h.get c).avl_parent = some x
  · -- direct case: c is x's own child
    rw [if_pos hdir]
    dsimp only
    have hwc0 : avl_which_child h c =
        (if (h.get x).child false = some c then (0 : Int) else 1) := by
      rw [avl_which_child, hdir]
    have hcside := hrefc.2.2 hdir
    have hi0 : intIdx2bool 0 = false := rfl
    have hi1 : intIdx2bool 1 = true := rfl
    have hxcwb : (h.get x).child wb = some c := by
      by_cases hcl : (h.get x).child false = some c
      · have hv0 : wci = 0 := by rw [← hwci, hwc0, if_pos hcl]
        rw [← hwb, hv0, hi0]
        exact hcl
      · have hcr2 : (h.get x).child true = some c := by
          rcases hcside with hl2 | hr2
          · exfalso
            apply hcl
            show (h.get x).childL = some c
            rw [hcdL]
            exact hl2
          · show (h.get x).childR = some c
            rw [hcdR]
            exact hr2
        have hv1 : wci = 1 := by rw [← hwci, hwc0, if_neg hcl]
        rw [← hwb, hv1, hi1]
        exact hcr2
    have e2 : ((h.wChild c (!wb) ((h.get x).child (!wb))).get c).child (!wb) =
        (h.get x).child (!wb) := by
      rw [get_wChild, if_pos rfl, setChild_child_same]
    rw [e2]
    have e3 : (wParentOpt (h.wChild c (!wb) ((h.get x).child (!wb)))
        ((h.get x).child (!wb)) (some c)).get x = h.get x := by
      rw [get_wParentOpt, if_neg (hxchne (!wb)), get_wChild, if_neg hxc]
    rw [e3]
    have e4 : ((wParentOpt (h.wChild c (!wb) ((h.get x).child (!wb)))
        ((h.get x).child (!wb)) (some c)).wBalance c ((h.get x).avl_balance)).get x =
        h.get x := by
      rw [get_wBalance, if_neg hxc]
      exact e3
    rw [e4, hxpar]
    have e5 : ((((wParentOpt (h.wChild c (!wb) ((h.get x).child (!wb)))
        ((h.get x).child (!wb)) (some c)).wBalance c ((h.get x).avl_balance)).wParent c
        (ctxPar ctx)).get c).avl_parent = ctxPar ctx := by
      rw [get_wParent, if_pos rfl]
      rfl
    rw [e5]
    rcases hctxe : ctx with _ | ⟨⟨d0, p0, sib0⟩, ctx2⟩
    · dsimp only [ctxPar]
      rw [hctxe] at hrep hnd hdom
      intro heq2
      have HN : noRefX ((wParentOpt (h.wChild c (!wb) ((h.get x).child (!wb)))
          ((h.get x).child (!wb)) (some c)).wBalance c
          ((h.get x).avl_balance) |>.wParent c none) x := by
        exact splice_noRefX h [] l r x hrep hnd hdom
          [.wc c (!wb) ((h.get x).child (!wb)),
           .wpo ((h.get x).child (!wb)) (some c),
           .wb c ((h.get x).avl_balance),
           .wp c none]
          (by
            intro op hop
            simp only [List.mem_cons, List.not_mem_nil, or_false] at hop
            rcases hop with rfl | rfl | rfl | rfl
            · exact hxchne (!wb)
            · intro hv2
              exact hcx (Option.some.inj hv2)
            · simp [WOp.ptrVal]
            · simp [WOp.ptrVal])
          (by intro q sib ctx3 habs; exact List.noConfusion habs)
          (by intro q sib ctx3 habs; exact List.noConfusion habs)
          (by
            intro q hq
            cases hwbv : wb
            · rcases hq with hq | hq
              · have hq2 : q = c := by
                  have h1 : (h.get x).childL = some c := by
                    have h2 := hxcwb
                    rw [hwbv] at h2
                    exact h2
                  have h3 : (h.get x).childL = some q := by rw [hcdL]; exact hq
                  rw [h1] at h3
                  exact (Option.some.inj h3).symm
                refine ⟨.wp c none, by simp, ?_⟩
                exact ⟨hq2, rfl⟩
              · refine ⟨.wpo ((h.get x).child true) (some c), by simp, ?_, rfl⟩
                show (h.get x).childR = some q
                rw [hcdR]
                exact hq
            · rcases hq with hq | hq
              · refine ⟨.wpo ((h.get x).child false) (some c), by simp, ?_, rfl⟩
                show (h.get x).childL = some q
                rw [hcdL]
                exact hq
              · have hq2 : q = c := by
                  have h1 : (h.get x).childR = some c := by
                    have h2 := hxcwb
                    rw [hwbv] at h2
                    exact h2
                  have h3 : (h.get x).childR = some q := by rw [hcdR]; exact hq
                  rw [h1] at h3
                  exact (Option.some.inj h3).symm
                refine ⟨.wp c none, by simp, ?_⟩
                exact ⟨hq2, rfl⟩)
      have F := removeRetrace_frame_x fuel _ (some c) wci (some c) x HN
        (fun he => hcx (Option.some.inj he)) (fun he => hcx (Option.some.inj he))
        h' root' cnt heq2
      refine ⟨F.1.trans ?_, F.2.1, F.2.2⟩
      rw [lk_wParent, if_neg hxc, lk_wBalance, if_neg hxc, lk_wParentOpt,
        if_neg (hxchne (!wb)), lk_wChild, if_neg hxc]
    · dsimp only [ctxPar]
      rw [hctxe] at hrep hnd hdom hroot
      have hp0nsub : p0 ∉ (BTree.node l x r).inorder :=
        head_not_mem_sub ctx2 d0 p0 sib0 _ hnd
      have hp0x : p0 ≠ x := fun he => hp0nsub (by rw [he]; simp)
      have hp0c : p0 ≠ c := fun he => hp0nsub (by rw [he]; exact hcmem)
      have hVBnp0 : (h.get x).child (!wb) ≠ some p0 := by
        intro habs
        exact hp0nsub (hxchsub (!wb) p0 habs)
      have hxpar2 : (h.get x).avl_parent = some p0 := by
        rw [hxpar, hctxe]
        rfl
      have e8 : ((((wParentOpt (h.wChild c (!wb) ((h.get x).child (!wb)))
          ((h.get x).child (!wb)) (some c)).wBalance c ((h.get x).avl_balance)).wParent c
          (some p0)).get p0) = h.get p0 := by
        rw [get_wParent, if_neg hp0c, get_wBalance, if_neg hp0c, get_wParentOpt,
          if_neg hVBnp0, get_wChild, if_neg hp0c]
      have e7 : ((((wParentOpt (h.wChild c (!wb) ((h.get x).child (!wb)))
          ((h.get x).child (!wb)) (some c)).wBalance c ((h.get x).avl_balance)).wParent c
          (some p0)).get x) = h.get x := by
        rw [get_wParent, if_neg hxc]
        exact e4
      have hlink := rep_plug_link h ctx2 (.node l x r) d0 p0 sib0 hrep
      have e6 : avl_which_child ((((wParentOpt (h.wChild c (!wb) ((h.get x).child (!wb)))
          ((h.get x).child (!wb)) (some c)).wBalance c ((h.get x).avl_balance)).wParent c
          (some p0))) x = (if d0 then 1 else 0) := by
        rw [avl_which_child, e7, hxpar2]
        dsimp only
        rw [e8]
        cases d0
        · have hch : (h.get p0).child false = some x := by
            rw [hlink.1]
            rfl
          rw [if_pos hch]
          rfl
        · have hch : (h.get p0).child false = sib0.rootP := hlink.2
          rw [hch, if_neg (sibling_root_ne h ctx2 true p0 sib0 l r x hnd)]
          rfl
      rw [e6, intIdx2bool_ite]
      intro heq2
      have HN : noRefX (((((wParentOpt (h.wChild c (!wb) ((h.get x).child (!wb)))
          ((h.get x).child (!wb)) (some c)).wBalance c
          ((h.get x).avl_balance)).wParent c (some p0)).wChild p0 d0 (some c))) x := by
        exact splice_noRefX h ((d0, p0, sib0) :: ctx2) l r x hrep hnd hdom
          [.wc c (!wb) ((h.get x).child (!wb)),
           .wpo ((h.get x).child (!wb)) (some c),
           .wb c ((h.get x).avl_balance),
           .wp c (some p0),
           .wc p0 d0 (some c)]
          (by
            intro op hop
            simp only [List.mem_cons, List.not_mem_nil, or_false] at hop
            rcases hop with rfl | rfl | rfl | rfl | rfl
            · exact hxchne (!wb)
            · intro hv2
              exact hcx (Option.some.inj hv2)
            · simp [WOp.ptrVal]
            · intro hv2
              exact hp0x (Option.some.inj hv2)
            · intro hv2
              exact hcx (Option.some.inj hv2))
          (by
            intro q sib ctx3 habs
            injection habs with h1 h2
            injection h1 with hd h1b
            injection h1b with hp hs
            refine ⟨.wc p0 d0 (some c), by simp, hp.symm, ?_⟩
            rw [hd]
            rfl)
          (by
            intro q sib ctx3 habs
            injection habs with h1 h2
            injection h1 with hd h1b
            injection h1b with hp hs
            refine ⟨.wc p0 d0 (some c), by simp, hp.symm, ?_⟩
            rw [hd]
            rfl)
          (by
            intro q hq
            cases hwbv : wb
            · rcases hq with hq | hq
              · have hq2 : q = c := by
                  have h1 : (h.get x).childL = some c := by
                    have h2 := hxcwb
                    rw [hwbv] at h2
                    exact h2
                  have h3 : (h.get x).childL = some q := by rw [hcdL]; exact hq
                  rw [h1] at h3
                  exact (Option.some.inj h3).symm
                refine ⟨.wp c (some p0), by simp, ?_⟩
                exact ⟨hq2, rfl⟩
              · refine ⟨.wpo ((h.get x).child true) (some c), by simp, ?_, rfl⟩
                show (h.get x).childR = some q
                rw [hcdR]
                exact hq
            · rcases hq with hq | hq
              · refine ⟨.wpo ((h.get x).child false) (some c), by simp, ?_, rfl⟩
                show (h.get x).childL = some q
                rw [hcdL]
                exact hq
              · have hq2 : q = c := by
                  have h1 : (h.get x).childR = some c := by
                    have h2 := hxcwb
                    rw [hwbv] at h2
                    exact h2
                  have h3 : (h.get x).childR = some q := by rw [hcdR]; exact hq
                  rw [h1] at h3
                  exact (Option.some.inj h3).symm
                refine ⟨.wp c (some p0), by simp, ?_⟩
                exact ⟨hq2, rfl⟩)
      have hrootne2 : root ≠ some x := by
        rw [hroot]
        cases d0
        · exact rootP_plug_ne ctx2 (.node (.node l x r) p0 sib0) x (by simp) hnd
            (by rw [BTree.rootP_node]; intro he; exact hp0x (Option.some.inj he))
        · exact rootP_plug_ne ctx2 (.node sib0 p0 (.node l x r)) x (by simp) hnd
            (by rw [BTree.rootP_node]; intro he; exact hp0x (Option.some.inj he))
      have F := removeRetrace_frame_x fuel _ root wci (some c) x HN
        (fun he => hcx (Option.some.inj he)) hrootne2 h' root' cnt heq2
      refine ⟨F.1.trans ?_, F.2.1, F.2.2⟩
      rw [lk_wChild, if_neg (fun he => hp0x he.symm), lk_wParent, if_neg hxc,
        lk_wBalance, if_neg hxc, lk_wParentOpt,
        if_neg (hxchne (!wb)), lk_wChild, if_neg hxc]
  · -- distant case: the replacement is not a direct child of x
    rw [if_neg hdir]
    rcases hpc : (h.get c).avl_parent with _ | pc
    · dsimp only
      intro heq2
      exact Option.noConfusion heq2
    · dsimp only
      have hpcx : pc ≠ x := fun he => hdir (by rw [hpc, he])
      have hxpc : x ≠ pc := fun he => hpcx he.symm
      have hpcmem : pc ∈ (BTree.node l x r).inorder := by
        rw [hpc] at hpc0
        rw [← Option.some.inj hpc0] at hpc0mem
        exact hpc0mem
      generalize hgch : (h.get c).child (avl_balance2idx (h.get c).avl_balance) = gch
      have hgchne : gch ≠ some x := by
        rw [← hgch]
        exact hccne _
      have hgchsub : ∀ w, gch = some w → w ∈ (BTree.node l x r).inorder := by
        intro w hw
        exact hcchsub _ w (by rw [hgch]; exact hw)
      have e1 : ((h.wChild c wb ((h.get x).child wb)).get c).child wb =
          (h.get x).child wb := by
        rw [get_wChild, if_pos rfl, setChild_child_same]
      rw [e1]
      have eA : (wParentOpt ((wParentOpt (h.wChild c wb ((h.get x).child wb))
          ((h.get x).child wb) (some c)).wChild pc wb gch) gch (some pc)).get x =
          h.get x := by
        rw [get_wParentOpt, if_neg hgchne, get_wChild, if_neg hxpc, get_wParentOpt,
          if_neg (hxchne wb), get_wChild, if_neg hxc]
      rw [eA]
      have e2b : (((wParentOpt ((wParentOpt (h.wChild c wb ((h.get x).child wb))
          ((h.get x).child wb) (some c)).wChild pc wb gch) gch (some pc)).wChild c (!wb)
          ((h.get x).child (!wb))).get c).child (!wb) = (h.get x).child (!wb) := by
        rw [get_wChild, if_pos rfl, setChild_child_same]
      rw [e2b]
      have e3b : (wParentOpt ((wParentOpt ((wParentOpt (h.wChild c wb ((h.get x).child wb))
          ((h.get x).child wb) (some c)).wChild pc wb gch) gch (some pc)).wChild c (!wb)
          ((h.get x).child (!wb))) ((h.get x).child (!wb)) (some c)).get x = h.get x := by
        rw [get_wParentOpt, if_neg (hxchne (!wb)), get_wChild, if_neg hxc]
        exact eA
      rw [e3b]
      have e4b : ((wParentOpt ((wParentOpt ((wParentOpt (h.wChild c wb ((h.get x).child wb))
          ((h.get x).child wb) (some c)).wChild pc wb gch) gch (some pc)).wChild c (!wb)
          ((h.get x).child (!wb))) ((h.get x).child (!wb)) (some c)).wBalance c
          ((h.get x).avl_balance)).get x = h.get x := by
        rw [get_wBalance, if_neg hxc]
        exact e3b
      rw [e4b, hxpar]
      have e5b : (((((wParentOpt ((wParentOpt ((wParentOpt (h.wChild c wb
          ((h.get x).child wb)) ((h.get x).child wb) (some c)).wChild pc wb gch) gch
          (some pc)).wChild c (!wb) ((h.get x).child (!wb))) ((h.get x).child (!wb))
          (some c)).wBalance c ((h.get x).avl_balance)).wParent c
          (ctxPar ctx)).get c).avl_parent) = ctxPar ctx := by
        rw [get_wParent, if_pos rfl]
        rfl
      rw [e5b]
      rcases hctxe : ctx with _ | ⟨⟨d0, p0, sib0⟩, ctx2⟩
      · dsimp only [ctxPar]
        rw [hctxe] at hrep hnd hdom
        intro heq2
        have HN : noRefX ((wParentOpt ((wParentOpt ((wParentOpt (h.wChild c wb
            ((h.get x).child wb)) ((h.get x).child wb) (some c)).wChild pc wb gch) gch
            (some pc)).wChild c (!wb) ((h.get x).child (!wb))) ((h.get x).child (!wb))
            (some c)).wBalance c ((h.get x).avl_balance) |>.wParent c none) x := by
          exact splice_noRefX h [] l r x hrep hnd hdom
            [.wc c wb ((h.get x).child wb),
             .wpo ((h.get x).child wb) (some c),
             .wc pc wb gch,
             .wpo gch (some pc),
             .wc c (!wb) ((h.get x).child (!wb)),
             .wpo ((h.get x).child (!wb)) (some c),
             .wb c ((h.get x).avl_balance),
             .wp c none]
            (by
              intro op hop
              simp only [List.mem_cons, List.not_mem_nil, or_false] at hop
              rcases hop with rfl | rfl | rfl | rfl | rfl | rfl | rfl | rfl
              · exact hxchne wb
              · intro hv2
                exact hcx (Option.some.inj hv2)
              · exact hgchne
              · intro hv2
                exact hpcx (Option.some.inj hv2)
              · exact hxchne (!wb)
              · intro hv2
                exact hcx (Option.some.inj hv2)
              · simp [WOp.ptrVal]
              · simp [WOp.ptrVal])
            (by intro q sib ctx3 habs; exact List.noConfusion habs)
            (by intro q sib ctx3 habs; exact List.noConfusion habs)
            (by
              intro q hq
              cases hwbv : wb
              · rcases hq with hq | hq
                · refine ⟨.wpo ((h.get x).child false) (some c), by simp, ?_, rfl⟩
                  show (h.get x).childL = some q
                  rw [hcdL]
                  exact hq
                · refine ⟨.wpo ((h.get x).child true) (some c), by simp, ?_, rfl⟩
                  show (h.get x).childR = some q
                  rw [hcdR]
                  exact hq
              · rcases hq with hq | hq
                · refine ⟨.wpo ((h.get x).child false) (some c), by simp, ?_, rfl⟩
                  show (h.get x).childL = some q
                  rw [hcdL]
                  exact hq
                · refine ⟨.wpo ((h.get x).child true) (some c), by simp, ?_, rfl⟩
                  show (h.get x).childR = some q
                  rw [hcdR]
                  exact hq)
        have F := removeRetrace_frame_x fuel _ (some c) wci (some pc) x HN
          (fun he => hpcx (Option.some.inj he)) (fun he => hcx (Option.some.inj he))
          h' root' cnt heq2
        refine ⟨F.1.trans ?_, F.2.1, F.2.2⟩
        rw [lk_wParent, if_neg hxc, lk_wBalance, if_neg hxc, lk_wParentOpt,
          if_neg (hxchne (!wb)), lk_wChild, if_neg hxc, lk_wParentOpt, if_neg hgchne,
          lk_wChild, if_neg hxpc, lk_wParentOpt, if_neg (hxchne wb), lk_wChild,
          if_neg hxc]
      · dsimp only [ctxPar]
        rw [hctxe] at hrep hnd hdom hroot
        have hp0nsub : p0 ∉ (BTree.node l x r).inorder :=
          head_not_mem_sub ctx2 d0 p0 sib0 _ hnd
        have hp0x : p0 ≠ x := fun he => hp0nsub (by rw [he]; simp)
        have hp0c : p0 ≠ c := fun he => hp0nsub (by rw [he]; exact hcmem)
        have hp0pc : p0 ≠ pc := fun he => hp0nsub (by rw [he]; exact hpcmem)
        have hVAnp0 : (h.get x).child wb ≠ some p0 := by
          intro habs
          exact hp0nsub (hxchsub wb p0 habs)
        have hVBnp0 : (h.get x).child (!wb) ≠ some p0 := by
          intro habs
          exact hp0nsub (hxchsub (!wb) p0 habs)
        have hgchnp0 : gch ≠ some p0 := by
          intro habs
          exact hp0nsub (hgchsub p0 habs)
        have hxpar2 : (h.get x).avl_parent = some p0 := by
          rw [hxpar, hctxe]
          rfl
        have e8b : ((((wParentOpt ((wParentOpt ((wParentOpt (h.wChild c wb
            ((h.get x).child wb)) ((h.get x).child wb) (some c)).wChild pc wb gch) gch
            (some pc)).wChild c (!wb) ((h.get x).child (!wb))) ((h.get x).child (!wb))
            (some c)).wBalance c ((h.get x).avl_balance)).wParent c
            (some p0)).get p0) = h.get p0 := by
          rw [get_wParent, if_neg hp0c, get_wBalance, if_neg hp0c, get_wParentOpt,
            if_neg hVBnp0, get_wChild, if_neg hp0c, get_wParentOpt, if_neg hgchnp0,
            get_wChild, if_neg hp0pc, get_wParentOpt, if_neg hVAnp0, get_wChild,
            if_neg hp0c]
        have e7b : ((((wParentOpt ((wParentOpt ((wParentOpt (h.wChild c wb
            ((h.get x).child wb)) ((h.get x).child wb) (some c)).wChild pc wb gch) gch
            (some pc)).wChild c (!wb) ((h.get x).child (!wb))) ((h.get x).child (!wb))
            (some c)).wBalance c ((h.get x).avl_balance)).wParent c
            (some p0)).get x) = h.get x := by
          rw [get_wParent, if_neg hxc]
          exact e4b
        have hlink := rep_plug_link h ctx2 (.node l x r) d0 p0 sib0 hrep
        have e6b : avl_which_child ((((wParentOpt ((wParentOpt ((wParentOpt (h.wChild c wb
            ((h.get x).child wb)) ((h.get x).child wb) (some c)).wChild pc wb gch) gch
            (some pc)).wChild c (!wb) ((h.get x).child (!wb))) ((h.get x).child (!wb))
            (some c)).wBalance c ((h.get x).avl_balance)).wParent c
            (some p0))) x = (if d0 then 1 else 0) := by
          rw [avl_which_child, e7b, hxpar2]
          dsimp only
          rw [e8b]
          cases d0
          · have hch : (h.get p0).child false = some x := by
              rw [hlink.1]
              rfl
            rw [if_pos hch]
            rfl
          · have hch : (h.get p0).child false = sib0.rootP := hlink.2
            rw [hch, if_neg (sibling_root_ne h ctx2 true p0 sib0 l r x hnd)]
            rfl
        rw [e6b, intIdx2bool_ite]
        intro heq2
        have HN : noRefX (((((wParentOpt ((wParentOpt ((wParentOpt (h.wChild c wb
            ((h.get x).child wb)) ((h.get x).child wb) (some c)).wChild pc wb gch) gch
            (some pc)).wChild c (!wb) ((h.get x).child (!wb))) ((h.get x).child (!wb))
            (some c)).wBalance c ((h.get x).avl_balance)).wParent c
            (some p0)).wChild p0 d0 (some c))) x := by
          exact splice_noRefX h ((d0, p0, sib0) :: ctx2) l r x hrep hnd hdom
            [.wc c wb ((h.get x).child wb),
             .wpo ((h.get x).child wb) (some c),
             .wc pc wb gch,
             .wpo gch (some pc),
             .wc c (!wb) ((h.get x).child (!wb)),
             .wpo ((h.get x).child (!wb)) (some c),
             .wb c ((h.get x).avl_balance),
             .wp c (some p0),
             .wc p0 d0 (some c)]
            (by
              intro op hop
              simp only [List.mem_cons, List.not_mem_nil, or_false] at hop
              rcases hop with rfl | rfl | rfl | rfl | rfl | rfl | rfl | rfl | rfl
              · exact hxchne wb
              · intro hv2
                exact hcx (Option.some.inj hv2)
              · exact hgchne
              · intro hv2
                exact hpcx (Option.some.inj hv2)
              · exact hxchne (!wb)
              · intro hv2
                exact hcx (Option.some.inj hv2)
              · simp [WOp.ptrVal]
              · intro hv2
                exact hp0x (Option.some.inj hv2)
              · intro hv2
                exact hcx (Option.some.inj hv2))
            (by
              intro q sib ctx3 habs
              injection habs with h1 h2
              injection h1 with hd h1b
              injection h1b with hp hs
              refine ⟨.wc p0 d0 (some c), by simp, hp.symm, ?_⟩
              rw [hd]
              rfl)
            (by
              intro q sib ctx3 habs
              injection habs with h1 h2
              injection h1 with hd h1b
              injection h1b with hp hs
              refine ⟨.wc p0 d0 (some c), by simp, hp.symm, ?_⟩
              rw [hd]
              rfl)
            (by
              intro q hq
              cases hwbv : wb
              · rcases hq with hq | hq
                · refine ⟨.wpo ((h.get x).child false) (some c), by simp, ?_, rfl⟩
                  show (h.get x).childL = some q
                  rw [hcdL]
                  exact hq
                · refine ⟨.wpo ((h.get x).child true) (some c), by simp, ?_, rfl⟩
                  show (h.get x).childR = some q
                  rw [hcdR]
                  exact hq
              · rcases hq with hq | hq
                · refine ⟨.wpo ((h.get x).child false) (some c), by simp, ?_, rfl⟩
                  show (h.get x).childL = some q
                  rw [hcdL]
                  exact hq
                · refine ⟨.wpo ((h.get x).child true) (some c), by simp, ?_, rfl⟩
                  show (h.get x).childR = some q
                  rw [hcdR]
                  exact hq)
        have hrootne2 : root ≠ some x := by
          rw [hroot]
          cases d0
          · exact rootP_plug_ne ctx2 (.node (.node l x r) p0 sib0) x (by simp) hnd
              (by rw [BTree.rootP_node]; intro he; exact hp0x (Option.some.inj he))
          · exact rootP_plug_ne ctx2 (.node sib0 p0 (.node l x r)) x (by simp) hnd
              (by rw [BTree.rootP_node]; intro he; exact hp0x (Option.some.inj he))
        have F := removeRetrace_frame_x fuel _ root wci (some pc) x HN
          (fun he => hpcx (Option.some.inj he)) hrootne2 h' root' cnt heq2
        refine ⟨F.1.trans ?_, F.2.1, F.2.2⟩
        rw [lk_wChild, if_neg (fun he => hp0x he.symm), lk_wParent, if_neg hxc,
          lk_wBalance, if_neg hxc, lk_wParentOpt, if_neg (hxchne (!wb)), lk_wChild,
          if_neg hxc, lk_wParentOpt, if_neg hgchne, lk_wChild, if_neg hxpc,
          lk_wParentOpt, if_neg (hxchne wb), lk_wChild, if_neg hxc]

theorem balOk_plug_sub : ∀ (ctx : List Frame) (t : BTree) (h : Heap),
    balOkB h (plug ctx t) = true → balOkB h t = true := by
  intro ctx
  induction ctx with
  | nil => intro t h ht; exact ht
  | cons f ctx ih =>
    intro t h ht
    obtain ⟨d, p, sib⟩ := f
    cases d
    · have ht2 : balOkB h (plug ctx (.node t p sib)) = true := ht
      have h2 := ih _ _ ht2
      rw [balOk_node_iff] at h2
      exact h2.2.1
    · have ht2 : balOkB h (plug ctx (.node sib p t)) = true := ht
      have h2 := ih _ _ ht2
      rw [balOk_node_iff] at h2
      exact h2.2.2

/-- A heap whose bindings all carry keys of the tree only maps tree nodes. -/
theorem heapDom_of_all (h : Heap) (t : BTree)
    (hall : h.all (fun e => decide (e.1 ∈ t.inorder)) = true) :
    ∀ q, (h.lk q).isSome = true → q ∈ t.inorder := by
  induction h with
  | nil => intro q hq; simp [Heap.lk] at hq
  | cons e h ih =>
    obtain ⟨p, n⟩ := e
    rw [List.all_cons] at hall
    simp only [Bool.and_eq_true, decide_eq_true_eq] at hall
    intro q hq
    simp only [Heap.lk] at hq
    by_cases hqp : q = p
    · rw [hqp]
      exact hall.1
    · rw [if_neg hqp] at hq
      exact ih hall.2 q hq

/-- The inner descent loop stays inside the subtree it starts in. -/
theorem descendLoop_mem (h : Heap) (i : Bool) : ∀ (fuel : Nat) (t : BTree)
    (p : Option Nat) (m : Nat), repB h p t = true → t.rootP = some m →
    ∀ res, descendLoop h i fuel m = some res → res ∈ t.inorder := by
  intro fuel
  induction fuel with
  | zero =>
    intro t p m _ _ res hres
    simp [descendLoop] at hres
  | succ fuel ih =>
    intro t p m hrep hm res hres
    cases t with
    | nil => simp at hm
    | node tl m2 tr =>
      rw [BTree.rootP_node] at hm
      have hm2 : m2 = m := Option.some.inj hm
      subst hm2
      rw [repB_node_iff] at hrep
      rw [descendLoop] at hres
      rcases hch : (h.get m2).child i with _ | w
      · rw [hch] at hres
        have hres2 : res = m2 := (Option.some.inj hres).symm
        subst hres2
        simp
      · rw [hch] at hres
        cases i
        · have hw : tl.rootP = some w := by
            rw [← hrep.2.2.1]
            exact hch
          have hres2 := ih tl (some m2) w hrep.2.2.2.2.1 hw res hres
          simp [hres2]
        · have hw : tr.rootP = some w := by
            rw [← hrep.2.2.2.1]
            exact hch
          have hres2 := ih tr (some m2) w hrep.2.2.2.2.2 hw res hres
          simp [hres2]

/-- C10: `avl_remove` never writes any field of the removed node: its cell is
bitwise unchanged after the call, the root handle never ends up pointing at
it, and no remaining node retains any child or parent reference to it. -/
theorem C10_remove_never_writes_removed (h : Heap) (root : Option Nat)
    (t : BTree) (x fuel : Nat)
    (hwf : wfB h root t = true)
    (hbal : balOkB h t = true)
    (hx : x ∈ t.inorder)
    (hdomb : h.all (fun e => decide (e.1 ∈ t.inorder)) = true)
    (h' : Heap) (root' : Option Nat) (cnt : Nat)
    (hrun : avl_remove h root x fuel = some (h', root', cnt)) :
    h'.lk x = h.lk x ∧ root' ≠ some x ∧
      ∀ q, q ≠ x → (h'.get q).childL ≠ some x ∧ (h'.get q).childR ≠ some x ∧
        (h'.get q).avl_parent ≠ some x := by
  simp only [wfB, Bool.and_eq_true, beq_iff_eq, decide_eq_true_eq] at hwf
  obtain ⟨⟨hrooteq, hrep⟩, hnd⟩ := hwf
  have hdom := heapDom_of_all h t hdomb
  obtain ⟨ctx, l, r, hctx⟩ := mem_inorder_decomp t x hx
  subst hctx
  have hsub := rep_plug_sub h ctx _ hrep
  rw [repB_node_iff] at hsub
  have hndsub := nodup_sub_of_plug ctx _ hnd
  obtain ⟨hxl, hxr, hndl, hndr, hdislr⟩ := nodup_node_facts l x r hndsub
  have hcdL : (h.get x).childL = l.rootP := hsub.2.2.1
  have hcdR : (h.get x).childR = r.rootP := hsub.2.2.2.1
  have hxpar : (h.get x).avl_parent = ctxPar ctx := hsub.2.1
  by_cases hleaf : (h.get x).child false = none ∧ (h.get x).child true = none
  · -- x is a leaf
    have hl0 : l = .nil := by
      have hln : l.rootP = none := by
        rw [← hcdL]
        exact hleaf.1
      cases hl2 : l with
      | nil => rfl
      | node a b c2 =>
        rw [hl2, BTree.rootP_node] at hln
        exact Option.noConfusion hln
    have hr0 : r = .nil := by
      have hrn : r.rootP = none := by
        rw [← hcdR]
        exact hleaf.2
      cases hr2 : r with
      | nil => rfl
      | node a b c2 =>
        rw [hr2, BTree.rootP_node] at hrn
        exact Option.noConfusion hrn
    subst hl0
    subst hr0
    rw [avl_remove, if_pos hleaf] at hrun
    rcases hpar : (h.get x).avl_parent with _ | p0
    · rw [hpar] at hrun
      simp only [Option.some.injEq, Prod.mk.injEq] at hrun
      obtain ⟨rfl, rfl, rfl⟩ := hrun
      rw [hpar] at hxpar
      refine ⟨rfl, by simp, ?_⟩
      exact splice_noRefX h ctx .nil .nil x hrep hnd hdom []
        (by simp)
        (by
          intro q sib ctx3 hctxe3
          exfalso
          rw [hctxe3] at hxpar
          simp [ctxPar] at hxpar)
        (by
          intro q sib ctx3 hctxe3
          exfalso
          rw [hctxe3] at hxpar
          simp [ctxPar] at hxpar)
        (by
          intro q hq
          rcases hq with hq | hq <;> simp at hq)
    · rw [hpar] at hrun hxpar
      cases hctxe : ctx with
      | nil =>
        rw [hctxe] at hxpar
        simp [ctxPar] at hxpar
      | cons f ctx2 =>
        obtain ⟨d0, p0b, sib0⟩ := f
        rw [hctxe] at hxpar
        have hp0b : p0b = p0 := by
          simp only [ctxPar] at hxpar
          exact (Option.some.inj hxpar).symm
        subst hp0b
        rw [hctxe] at hrep hnd hdom hrooteq
        have hwc := which_child_head h ctx2 d0 p0b sib0 .nil .nil x hrep hnd
        rw [hwc] at hrun
        dsimp only at hrun
        rw [intIdx2bool_ite] at hrun
        have hp0nsub : p0b ∉ (BTree.node BTree.nil x BTree.nil).inorder :=
          head_not_mem_sub ctx2 d0 p0b sib0 _ hnd
        have hp0x : p0b ≠ x := fun he => hp0nsub (by rw [he]; simp)
        have HN : noRefX (h.wChild p0b d0 none) x := by
          exact splice_noRefX h ((d0, p0b, sib0) :: ctx2) .nil .nil x hrep hnd hdom
            [.wc p0b d0 none]
            (by
              intro op hop
              simp only [List.mem_cons, List.not_mem_nil, or_false] at hop
              rcases hop with rfl
              simp [WOp.ptrVal])
            (by
              intro q sib ctx3 habs
              injection habs with h1 h2
              injection h1 with hd h1b
              injection h1b with hp hs
              refine ⟨.wc p0b d0 none, by simp, hp.symm, ?_⟩
              rw [hd]
              rfl)
            (by
              intro q sib ctx3 habs
              injection habs with h1 h2
              injection h1 with hd h1b
              injection h1b with hp hs
              refine ⟨.wc p0b d0 none, by simp, hp.symm, ?_⟩
              rw [hd]
              rfl)
            (by
              intro q hq
              rcases hq with hq | hq <;> simp at hq)
        have hrootne : root ≠ some x := by
          rw [hrooteq]
          cases d0
          · exact rootP_plug_ne ctx2 (.node (.node .nil x .nil) p0b sib0) x (by simp) hnd
              (by rw [BTree.rootP_node]; intro he; exact hp0x (Option.some.inj he))
          · exact rootP_plug_ne ctx2 (.node sib0 p0b (.node .nil x .nil)) x (by simp) hnd
              (by rw [BTree.rootP_node]; intro he; exact hp0x (Option.some.inj he))
        have F := removeRetrace_frame_x fuel _ root _ (some p0b) x HN
          (fun he => hp0x (Option.some.inj he)) hrootne h' root' cnt hrun
        refine ⟨F.1.trans ?_, F.2.2, F.2.1⟩
        rw [lk_wChild, if_neg (fun he => hp0x he.symm)]
  · -- x has at least one child
    have hbalx : (h.get x).avl_balance = (r.height : Int) - (l.height : Int) := by
      have hb2 := balOk_plug_sub ctx _ h hbal
      rw [balOk_node_iff] at hb2
      exact hb2.1
    by_cases hblt : (h.get x).avl_balance < 0
    · have hlh : 1 ≤ l.height := by
        rw [hbalx] at hblt
        by_contra hlh0
        push_neg at hlh0
        omega
      cases hl2 : l with
      | nil =>
        rw [hl2] at hlh
        simp [BTree.height] at hlh
      | node l2 y r2 =>
        have hrepl : repB h (some x) (.node l2 y r2) = true := by
          rw [← hl2]
          exact hsub.2.2.2.2.1
        have hpn2base : (h.get x).child false = some y := by
          show (h.get x).childL = some y
          rw [hcdL, hl2]
          rfl
        rcases hdl : descendLoop h true fuel y with _ | cres
        · exfalso
          rw [avl_remove, if_neg hleaf] at hrun
          simp only [if_pos hblt] at hrun
          rw [avl_prev_next] at hrun
          have hwcx : avl_cmp2idx (-1) = false := rfl
          rw [hwcx, hpn2base] at hrun
          dsimp only at hrun
          rw [show descendLoop h (!false) fuel y = none from hdl] at hrun
          simp at hrun
        · have hpn2 : avl_prev_next h fuel x (-1) = some (some cres) := by
            rw [avl_prev_next]
            have hwcx : avl_cmp2idx (-1) = false := rfl
            rw [hwcx, hpn2base]
            show (descendLoop h true fuel y).map some = some (some cres)
            rw [hdl]
            rfl
          have heqsp : avl_remove h root x fuel = removeSplice h root x fuel cres := by
            rw [avl_remove, if_neg hleaf]
            simp only [if_pos hblt]
            rw [hpn2]
          rw [heqsp] at hrun
          have hcml : cres ∈ l.inorder := by
            rw [hl2]
            exact descendLoop_mem h true fuel (.node l2 y r2) (some x) y hrepl rfl cres hdl
          have hcmem : cres ∈ (BTree.node l x r).inorder := by
            simp [hcml]
          have hcx : cres ≠ x := fun he => hxl (he ▸ hcml)
          have R := removeSplice_frame_x h root x fuel cres ctx l r hrep hnd hrooteq hdom
            hcmem hcx h' root' cnt hrun
          exact ⟨R.1, R.2.2, R.2.1⟩
    · have hrh : 1 ≤ r.height := by
        by_contra hrh0
        push_neg at hrh0
        have hr0 : r.height = 0 := by omega
        have hl0 : l.height = 0 := by
          rw [hbalx, hr0] at hblt
          push_neg at hblt
          simp only [Nat.cast_zero, zero_sub] at hblt
          omega
        apply hleaf
        constructor
        · show (h.get x).childL = none
          rw [hcdL, (height_eq_zero_iff l).1 hl0]
          rfl
        · show (h.get x).childR = none
          rw [hcdR, (height_eq_zero_iff r).1 hr0]
          rfl
      cases hr2 : r with
      | nil =>
        rw [hr2] at hrh
        simp [BTree.height] at hrh
      | node l2 y r2 =>
        have hrepr : repB h (some x) (.node l2 y r2) = true := by
          rw [← hr2]
          exact hsub.2.2.2.2.2
        have hpn2base : (h.get x).child true = some y := by
          show (h.get x).childR = some y
          rw [hcdR, hr2]
          rfl
        rcases hdl : descendLoop h false fuel y with _ | cres
        · exfalso
          rw [avl_remove, if_neg hleaf] at hrun
          simp only [if_neg hblt] at hrun
          rw [avl_prev_next] at hrun
          have hwcx : avl_cmp2idx 1 = true := rfl
          rw [hwcx, hpn2base] at hrun
          dsimp only at hrun
          rw [show descendLoop h (!true) fuel y = none from hdl] at hrun
          simp at hrun
        · have hpn2 : avl_prev_next h fuel x 1 = some (some cres) := by
            rw [avl_prev_next]
            have hwcx : avl_cmp2idx 1 = true := rfl
            rw [hwcx, hpn2base]
            show (descendLoop h false fuel y).map some = some (some cres)
            rw [hdl]
            rfl
          have heqsp : avl_remove h root x fuel = removeSplice h root x fuel cres := by
            rw [avl_remove, if_neg hleaf]
            simp only [if_neg hblt]
            rw [hpn2]
          rw [heqsp] at hrun
          have hcmr : cres ∈ r.inorder := by
            rw [hr2]
            exact descendLoop_mem h false fuel (.node l2 y r2) (some x) y hrepr rfl cres hdl
          have hcmem : cres ∈ (BTree.node l x r).inorder := by
            simp [hcmr]
          have hcx : cres ≠ x := fun he => hxr (he ▸ hcmr)
          have R := removeSplice_frame_x h root x fuel cres ctx l r hrep hnd hrooteq hdom
            hcmem hcx h' root' cnt hrun
          exact ⟨R.1, R.2.2, R.2.1⟩

/-- The heap `avl_remove wit3Heap (some 2) 2 4` produces: node 2's cell (the
last binding for key 2) is exactly the original one. -/
def c10resHeap : Heap :=
  [(3, ⟨some 1, none, none, -1⟩),
   (3, ⟨some 1, none, none, 0⟩),
   (3, ⟨some 1, none, some 2, 0⟩),
   (1, ⟨none, none, some 3, 0⟩),
   (3, ⟨some 1, none, some 2, 0⟩),
   (1, ⟨none, none, some 2, 0⟩),
   (2, ⟨some 1, some 3, none, 0⟩),
   (3, ⟨none, none, some 2, 0⟩)]

theorem C10_remove_never_writes_removed_witness :
    avl_remove wit3Heap (some 2) 2 4 = some (c10resHeap, some 3, 0) ∧
    c10resHeap.lk 2 = wit3Heap.lk 2 ∧ (some 3 : Option Nat) ≠ some 2 := by
  have hrun : avl_remove wit3Heap (some 2) 2 4 = some (c10resHeap, some 3, 0) := by rfl
  have H := C10_remove_never_writes_removed wit3Heap (some 2) wit3Tree 2 4 (by decide)
    (by decide) (by decide) (by decide) c10resHeap (some 3) 0 hrun
  exact ⟨hrun, H.1, H.2.1⟩

end Avl
